import Mathlib

/-!
Verification development for the apex-edge deal-qualification service
(`src/index.ts`).  The definitions below are a shallow embedding of the
source: pure TypeScript functions become Lean functions, the key-value
stores become association lists threaded through a `World` state, and the
one outbound HTTP call of `llmAssess` is abstracted by an `LlmEnv` record
holding the secret store contents and the (already JSON-decoded) outcome
of the fetch.  JavaScript numbers are modelled as exact rationals: every
value the service manipulates is integral or a small decimal, so float
rounding, NaN propagation (from non-numeric form strings) and float
overflow of extreme JSON exponents are outside the model and are noted
where relevant.  `JSON.parse` / `JSON.stringify` are platform primitives;
`JSON.parse` is embedded below as an executable parser of the ECMA-404
grammar (with `\uXXXX` escapes mapped through `Char.ofNat`, which cannot
represent unpaired surrogates).
-/

/-! ### JavaScript string and truthiness helpers -/

/-- Whitespace skipped by `JSON.parse` (ECMA-404): space, tab, LF, CR. -/
def isJsonWs (c : Char) : Bool := c == ' ' || c == '\t' || c == '\n' || c == '\r'

/-- Whitespace removed by JavaScript `String.prototype.trim` (ASCII part;
exotic Unicode space characters are outside the model). -/
def isJsWs (c : Char) : Bool := isJsonWs c || c == '\x0b' || c == '\x0c'

/-- Embedding of `s.trim()`: drop `isJsWs` characters from both ends. -/
def jsTrim (s : String) : String :=
  String.mk (((s.toList.dropWhile isJsWs).reverse.dropWhile isJsWs).reverse)

/-- ASCII lower-casing of one character, as used for the `/i` regex flag. -/
def myLower (c : Char) : Char :=
  if 65 ≤ c.toNat ∧ c.toNat ≤ 90 then Char.ofNat (c.toNat + 32) else c

/-- Embedding of `s.toLowerCase()` (ASCII part). -/
def jsToLower (s : String) : String := String.mk (s.toList.map myLower)

/-- Embedding of `s.startsWith(pre)` / of a `^literal` regex test. -/
def jsStartsWith (s pre : String) : Bool := pre.toList.isPrefixOf s.toList

/-- Embedding of `x || d` for an optional string, where both a missing
value (`none`, JavaScript `null`/`undefined`) and the empty string are
falsy and select the default. -/
def jsStrOr (o : Option String) (d : String) : String :=
  match o with
  | some s => if s = "" then d else s
  | none => d

/-! ### JSON values -/

/-- A parsed JSON value (the result type of the embedded `JSON.parse`).
Numbers are exact rationals. -/
inductive Json where
  | null : Json
  | bool (b : Bool) : Json
  | num (q : ℚ) : Json
  | str (s : String) : Json
  | arr (elems : List Json) : Json
  | obj (members : List (String × Json)) : Json

/-- Property read on an object: first binding of the key (object members
are kept duplicate-free by `objInsert`, so first = only). -/
def lookupField : List (String × Json) → String → Option Json
  | [], _ => none
  | (k0, v0) :: rest, k => if k0 = k then some v0 else lookupField rest k

/-- JavaScript property access `j[k]`: `none` plays `undefined`
(non-objects have none of the properties this program reads). -/
def jsField (j : Json) (k : String) : Option Json :=
  match j with
  | Json.obj kvs => lookupField kvs k
  | _ => none

/-- Read a property and require a string value (used to distinguish
results by a decidable observation). -/
def jsFieldStr (j : Json) (k : String) : Option String :=
  match jsField j k with
  | some (Json.str s) => some s
  | _ => none

/-- Read a property and require a numeric value. -/
def jsFieldNum (j : Json) (k : String) : Option ℚ :=
  match jsField j k with
  | some (Json.num q) => some q
  | _ => none

/-- Object-member insertion with JavaScript semantics: an existing key is
overwritten in place, a new key is appended. -/
def objInsert (kvs : List (String × Json)) (k : String) (v : Json) : List (String × Json) :=
  match kvs with
  | [] => [(k, v)]
  | (k0, v0) :: rest => if k0 = k then (k0, v) :: rest else (k0, v0) :: objInsert rest k v

/-! ### The embedded `JSON.parse`

A total, executable parser of the ECMA-404 grammar, structural on a fuel
counter.  Every recursive call of `parseF` consumes at least one input
character per two units of fuel, so the fuel `2 * length + 2` supplied by
`jsonParse` never runs out on any input. -/

/-- Decimal value of a digit run (most significant first). -/
def digitsToNat (ds : List Char) : ℕ :=
  ds.foldl (fun a c => 10 * a + (c.toNat - 48)) 0

/-- Hexadecimal value of one character, if it is a hex digit. -/
def hexVal (c : Char) : Option ℕ :=
  if c.isDigit then some (c.toNat - 48)
  else if 97 ≤ c.toNat ∧ c.toNat ≤ 102 then some (c.toNat - 87)
  else if 65 ≤ c.toNat ∧ c.toNat ≤ 70 then some (c.toNat - 55)
  else none

/-- The value of a four-hex-digit escape, if all four are hex digits. -/
def hex4 (a b c d : Char) : Option ℕ :=
  match hexVal a, hexVal b, hexVal c, hexVal d with
  | some va, some vb, some vc, some vd => some (((va * 16 + vb) * 16 + vc) * 16 + vd)
  | _, _, _, _ => none

/-- The single-character escapes of the JSON grammar. -/
def escChar (c : Char) : Option Char :=
  if c = '"' then some '"'
  else if c = '\\' then some '\\'
  else if c = '/' then some '/'
  else if c = 'b' then some '\x08'
  else if c = 'f' then some '\x0c'
  else if c = 'n' then some '\n'
  else if c = 'r' then some '\r'
  else if c = 't' then some '\t'
  else none

/-- Contents of a JSON string after the opening quote: handles the escape
sequences of the grammar and rejects raw control characters. -/
def parseStringRestAux : List Char → List Char → Option (String × List Char)
  | _, [] => none
  | acc, c :: rest =>
    if c = '"' then some (String.mk acc.reverse, rest)
    else if c = '\\' then
      match rest with
      | [] => none
      | e :: rest2 =>
        if e = 'u' then
          match rest2 with
          | h1 :: h2 :: h3 :: h4 :: rest3 =>
            match hex4 h1 h2 h3 h4 with
            | some n => parseStringRestAux (Char.ofNat n :: acc) rest3
            | none => none
          | _ => none
        else
          match escChar e with
          | some ch => parseStringRestAux (ch :: acc) rest2
          | none => none
    else if c.toNat < 32 then none
    else parseStringRestAux (c :: acc) rest

/-- The power of ten scaling a number's exponent part, computed through
natural-number powers so that it reduces in the kernel. -/
def powTen (e : ℤ) : ℚ :=
  match e with
  | Int.ofNat n => ((10 ^ n : ℕ) : ℚ)
  | Int.negSucc n => 1 / ((10 ^ (n + 1) : ℕ) : ℚ)

/-- Fractional and exponent tail of a number, applied to the mantissa
accumulated so far.  `neg` is the leading minus sign.  (The exponent
scaling is skipped when the exponent is zero and the sign applied by
negation, so that integer literals reduce in the kernel; the value is
the same `sign * mantissa * 10 ^ e` the source computes.) -/
def finishNumber (neg : Bool) (mant : ℚ) (e : ℤ) : ℚ :=
  let scaled := match e with
    | Int.ofNat 0 => mant
    | _ => mant * powTen e
  if neg then -scaled else scaled

/-- Whether a list starts with the given character. -/
def headIs (c : Char) : List Char → Bool
  | x :: _ => x = c
  | [] => false

/-- Whether a list starts with a decimal digit. -/
def headDigit : List Char → Bool
  | x :: _ => x.isDigit
  | [] => false

/-- Exponent part of a JSON number (after `e`/`E` was consumed): an
optional sign and a nonempty digit run. -/
def parseExpPart (neg : Bool) (mant : ℚ) (cs : List Char) : Option (ℚ × List Char) :=
  let esign : ℤ := if headIs '-' cs then -1 else 1
  let cs2 := if headIs '+' cs ∨ headIs '-' cs then cs.tail else cs
  let es := cs2.takeWhile Char.isDigit
  if es = [] then none
  else some (finishNumber neg mant (esign * (digitsToNat es : ℤ)),
    cs2.dropWhile Char.isDigit)

/-- Optional exponent after the mantissa. -/
def parseAfterFrac (neg : Bool) (mant : ℚ) (cs : List Char) : Option (ℚ × List Char) :=
  if headIs 'e' cs ∨ headIs 'E' cs then parseExpPart neg mant cs.tail
  else some (finishNumber neg mant 0, cs)

/-- Optional fraction (a dot and a nonempty digit run) after the
integer part. -/
def parseAfterInt (neg : Bool) (ip : ℕ) (cs : List Char) : Option (ℚ × List Char) :=
  if headIs '.' cs then
    let fs := cs.tail.takeWhile Char.isDigit
    if fs = [] then none
    else parseAfterFrac neg ((ip : ℚ) + (digitsToNat fs : ℚ) / ((10 ^ fs.length : ℕ) : ℚ))
      (cs.tail.dropWhile Char.isDigit)
  else parseAfterFrac neg (ip : ℚ) cs

/-- A JSON number: optional minus, integer part (`0` alone or a
nonzero-led digit run), optional fraction, optional exponent. -/
def parseNumber (cs : List Char) : Option (ℚ × List Char) :=
  let neg := headIs '-' cs
  let cs1 := if neg then cs.tail else cs
  match cs1 with
  | [] => none
  | c :: r1 =>
    if c = '0' then parseAfterInt neg 0 r1
    else if c.isDigit then
      parseAfterInt neg (digitsToNat (cs1.takeWhile Char.isDigit))
        (cs1.dropWhile Char.isDigit)
    else none

/-- Whitespace skipping of the JSON grammar. -/
def skipWs (cs : List Char) : List Char := cs.dropWhile isJsonWs

/-- Parsing continuations: a value, the inside of an array just after `[`
or just after an element, the inside of an object just after the opening
brace or just after a member. -/
inductive PK where
  | value : PK
  | arrFirst : PK
  | arrNext (acc : List Json) : PK
  | objFirst : PK
  | objNext (acc : List (String × Json)) : PK

/-- The recursive core of the embedded `JSON.parse`.  `PK.value` expects
its input to start at a non-whitespace character; the array/object
continuations expect whitespace already skipped. -/
def parseF : ℕ → PK → List Char → Option (Json × List Char)
  | 0, _, _ => none
  | Nat.succ f, PK.value, cs =>
    if ['n', 'u', 'l', 'l'].isPrefixOf cs then some (Json.null, cs.drop 4)
    else if ['t', 'r', 'u', 'e'].isPrefixOf cs then some (Json.bool true, cs.drop 4)
    else if ['f', 'a', 'l', 's', 'e'].isPrefixOf cs then some (Json.bool false, cs.drop 5)
    else if headIs '"' cs then
      match parseStringRestAux [] cs.tail with
      | some (s, r1) => some (Json.str s, r1)
      | none => none
    else if headIs '[' cs then parseF f PK.arrFirst (skipWs cs.tail)
    else if headIs '\x7b' cs then parseF f PK.objFirst (skipWs cs.tail)
    else if headIs '-' cs || headDigit cs then
      match parseNumber cs with
      | some (q, r1) => some (Json.num q, r1)
      | none => none
    else none
  | Nat.succ f, PK.arrFirst, cs =>
    if headIs ']' cs then some (Json.arr [], cs.tail)
    else
      match parseF f PK.value cs with
      | some (v, r1) => parseF f (PK.arrNext [v]) (skipWs r1)
      | none => none
  | Nat.succ f, PK.arrNext acc, cs =>
    if headIs ',' cs then
      match parseF f PK.value (skipWs cs.tail) with
      | some (v, r1) => parseF f (PK.arrNext (acc ++ [v])) (skipWs r1)
      | none => none
    else if headIs ']' cs then some (Json.arr acc, cs.tail)
    else none
  | Nat.succ f, PK.objFirst, cs =>
    if headIs '\x7d' cs then some (Json.obj [], cs.tail)
    else if headIs '"' cs then
      match parseStringRestAux [] cs.tail with
      | some (k, r1) =>
        if headIs ':' (skipWs r1) then
          match parseF f PK.value (skipWs (skipWs r1).tail) with
          | some (v, r3) => parseF f (PK.objNext (objInsert [] k v)) (skipWs r3)
          | none => none
        else none
      | none => none
    else none
  | Nat.succ f, PK.objNext acc, cs =>
    if headIs '\x7d' cs then some (Json.obj acc, cs.tail)
    else if headIs ',' cs then
      if headIs '"' (skipWs cs.tail) then
        match parseStringRestAux [] (skipWs cs.tail).tail with
        | some (k, r1) =>
          if headIs ':' (skipWs r1) then
            match parseF f PK.value (skipWs (skipWs r1).tail) with
            | some (v, r3) => parseF f (PK.objNext (objInsert acc k v)) (skipWs r3)
            | none => none
          else none
        | none => none
      else none
    else none

/-- Embedding of `JSON.parse(s)`: `none` plays the thrown `SyntaxError`.
A value must be parsed and only whitespace may follow it. -/
def jsonParse (s : String) : Option Json :=
  match parseF (2 * s.length + 2) PK.value (skipWs s.toList) with
  | some (j, r) => if skipWs r = [] then some j else none
  | none => none

/-! ### `safeJSON` (src/index.ts lines 86-94) -/

/-- First replace of `safeJSON`: the case-insensitive `^` + three
backticks + `json` regex (replaced by the empty string when it matches). -/
def stripFenceJson (cs : List Char) : List Char :=
  if (cs.take 7).map myLower = "```json".toList then cs.drop 7 else cs

/-- Second replace: a leading three-backtick fence. -/
def stripFenceOpen (cs : List Char) : List Char :=
  if cs.take 3 = "```".toList then cs.drop 3 else cs

/-- Third replace: a trailing three-backtick fence (the `$`-anchored
regex removes the last three characters exactly when they are backticks). -/
def stripFenceClose (cs : List Char) : List Char :=
  if "```".toList.isSuffixOf cs then cs.take (cs.length - 3) else cs

/-- The string handed to `JSON.parse` by `safeJSON`: trimmed, then the
three fence replaces in source order. -/
def stripFences (s : String) : String :=
  String.mk (stripFenceClose (stripFenceOpen (stripFenceJson ((jsTrim s).toList))))

/-- The fixed object returned by `safeJSON` when parsing fails. -/
def fallbackJson : Json :=
  Json.obj [("tier", Json.str "Workable"), ("go_hold_nogo", Json.str "Hold"),
    ("total_score", Json.num 60), ("analysis", Json.str "Fallback result.")]

/-- Embedding of `safeJSON` (lines 86-94): strip common code fences, then
parse or fall back.  Total, so it never throws. -/
def safeJSON (maybe : String) : Json :=
  match jsonParse (stripFences maybe) with
  | some j => j
  | none => fallbackJson

/-! ### `heuristicScore` (src/index.ts lines 142-149) -/

/-- A score mapping as built by the `/assess` handler: a JavaScript
object in insertion order with numeric values.  (Values that are not
numbers would propagate NaN in the source and are outside the model.) -/
def ScoreSet : Type := List (String × ℚ)

/-- `Object.values` of a score mapping. -/
def scoreVals (scores : ScoreSet) : List ℚ := scores.map Prod.snd

/-- JavaScript `Math.round`: half-up, ties toward positive infinity. -/
def jsRound (x : ℚ) : ℤ := Int.floor (x + 1 / 2)

/-- Line 144: mean of the values, defaulting to 3 for an empty mapping
(`vals.length` is falsy exactly when it is zero). -/
def heuristicAvg (vals : List ℚ) : ℚ :=
  if vals.length ≠ 0 then vals.sum / (vals.length : ℚ) else 3

/-- Line 145: `Math.max(0, Math.min(100, Math.round(avg * 20)))`. -/
def heuristicTotal (vals : List ℚ) : ℤ :=
  max 0 (min 100 (jsRound (heuristicAvg vals * 20)))

/-- Line 146: the tier thresholds. -/
def heuristicTier (total : ℤ) : String :=
  if total ≥ 80 then "Strong" else if total ≥ 60 then "Workable" else "Weak"

/-- Line 147: the decision thresholds. -/
def heuristicDecision (total : ℤ) : String :=
  if total ≥ 80 then "Go" else if total ≥ 60 then "Hold" else "No-go"

/-- The payload handed to the scoring pipeline by `/assess` (line 273). -/
structure Payload where
  account : String
  title : String
  value : ℚ
  stage : String
  scores : ScoreSet
  notes : String

/-- Embedding of `heuristicScore` (lines 142-149), returning the result
object. -/
def heuristicScore (input : Payload) : Json :=
  let vals := scoreVals input.scores
  let total := heuristicTotal vals
  Json.obj [("tier", Json.str (heuristicTier total)),
    ("go_hold_nogo", Json.str (heuristicDecision total)),
    ("total_score", Json.num (total : ℚ)),
    ("analysis", Json.str "Heuristic fallback scoring.")]

/-! ### `llmAssess` (src/index.ts lines 97-140) -/

/-- The environment of one `llmAssess` invocation: the secret store
(`none` plays an absent secret) and the outcome of the single `fetch`.
`http = none` plays a network failure thrown by `fetch`; `http = some
none` plays a response body that `r.json()` fails to decode; `http = some
(some j)` plays a decoded body.  The response status is never inspected
by the source, so it is not modelled; the request body (model name,
temperature, prompt) is not observable and not modelled. -/
structure LlmEnv where
  secrets : String → Option String
  http : Option (Option Json)

/-- One step of optional chaining `v?.k`: `undefined` and `null`
short-circuit, a property read of a non-object is `undefined` for the
property names this program uses. -/
def optChainField (v : Option Json) (k : String) : Option Json :=
  match v with
  | none => none
  | some Json.null => none
  | some j => jsField j k

/-- One step of `v?.[0]`: element 0 of an array, first character of a
string (JavaScript indexes strings), `undefined` otherwise. -/
def optChainIdx0 (v : Option Json) : Option Json :=
  match v with
  | none => none
  | some (Json.arr (x :: _)) => some x
  | some (Json.str s) =>
    match s.toList with
    | c :: _ => some (Json.str (String.mk [c]))
    | [] => none
  | some _ => none

/-- The tail `?.trim() || "{}"` of both extraction chains: a nullish
chain value or an all-whitespace string yields the literal `"{}"`; a
non-string, non-nullish value makes the `.trim()` call throw a TypeError
(`none` here), which the enclosing `try` turns into the heuristic
fallback. -/
def extractText (content : Option Json) : Option String :=
  match content with
  | none => some "\x7b\x7d"
  | some Json.null => some "\x7b\x7d"
  | some (Json.str s) => some (if jsTrim s = "" then "\x7b\x7d" else jsTrim s)
  | some _ => none

/-- Line 116: `j?.choices?.[0]?.message?.content?.trim() || "{}"`. -/
def openaiText (j : Json) : Option String :=
  extractText (optChainField (optChainField (optChainIdx0
    (optChainField (some j) "choices")) "message") "content")

/-- Line 134: `j?.content?.[0]?.text?.trim() || "{}"`. -/
def anthropicText (j : Json) : Option String :=
  extractText (optChainField (optChainIdx0 (optChainField (some j) "content")) "text")

/-- The tail of a provider call: `safeJSON` of the extracted text, or
the heuristic result when the `.trim()` call threw (caught on line 137). -/
def llmText (input : Payload) (txt : Option String) : Json × Bool :=
  match txt with
  | none => (heuristicScore input, true)
  | some t => (safeJSON t, true)

/-- The `fetch`/`r.json()`/extract/`safeJSON` sequence shared by both
provider branches (lines 110-117 and 124-135): a thrown network failure
or body decode failure is caught on line 137 and yields the heuristic
result; a decoded body is fed through the extraction chain. -/
def llmAttempt (input : Payload) (extract : Json → Option String)
    (http : Option (Option Json)) : Json × Bool :=
  match http with
  | none => (heuristicScore input, true)
  | some none => (heuristicScore input, true)
  | some (some j) => llmText input (extract j)

/-- The key pre-flight shared by both provider branches: a missing or
empty key yields the heuristic result with no call issued (on the OpenAI
branch via the caught `throw` of line 109, on the Anthropic branch via
the early return of line 122 — observably identical), otherwise the call
is attempted. -/
def llmWithKey (input : Payload) (key : Option String)
    (extract : Json → Option String) (http : Option (Option Json)) : Json × Bool :=
  match key with
  | none => (heuristicScore input, false)
  | some k => if k = "" then (heuristicScore input, false) else llmAttempt input extract http

/-- Embedding of `llmAssess` (lines 97-140).  The boolean records
whether the outbound `fetch` was issued.  The `LLM_MODEL` secret is read
by the source but only flows into the (unmodelled) request body.  The
non-OpenAI branch is taken for every provider value other than
`"openai"` (the default being `"anthropic"`). -/
def llmAssess (env : LlmEnv) (input : Payload) : Json × Bool :=
  let provider := jsStrOr (env.secrets "LLM_PROVIDER") "anthropic"
  if provider = "openai" then
    llmWithKey input (env.secrets "OPENAI_API_KEY") openaiText env.http
  else
    llmWithKey input (env.secrets "ANTHROPIC_API_KEY") anthropicText env.http

/-! ### Sessions, deals and the router (src/index.ts lines 53-313)

The four Fastly KV stores are modelled as association lists in insertion
order (a put overwrites an existing key in place and appends a new one);
the `list({prefix, cursor, limit})` operation of the deals store
enumerates the keys with the prefix in store order, one hundred at a
time, handing back an opaque cursor modelled as the next start index.
Request forms are modelled with `Option` fields: `none` plays a missing
or empty field (both falsy in the source's `f.get(x) || d` reads); score
fields carry the numeric value of `Number(...)`.  HTML page bodies and
`set-cookie` headers are elided from `Resp` (rendering is presentation
glue with no observable effect on the stores).  A `Response` thrown by
`requireSession` (line 64) escapes `handle` uncaught and is modelled as
the handler's response, which is the source's evident contract for the
authentication short-circuit. -/

/-- A session record as stored by `/dev-login` (line 177). -/
structure SessionUser where
  sub : String
  email : String
deriving DecidableEq

/-- A deal document (lines 214-223): `lastTier`/`lastScore` are absent
until the first assessment and afterwards carry whatever the assessment
result's `tier`/`total_score` properties were (possibly `undefined`,
hence `Option Json`). -/
structure Deal where
  userId : String
  dealId : String
  account : String
  title : String
  value : ℚ
  stage : String
  lastAssessmentId : Option ℕ
  lastTier : Option Json
  lastScore : Option Json
  updatedAt : ℕ

/-- The four KV stores. -/
structure World where
  sessions : List (String × SessionUser)
  deals : List (String × Deal)
  assessments : List (String × Json)
  usage : List (String × ℕ)

/-- KV `get`. -/
def kvGet {α : Type} : List (String × α) → String → Option α
  | [], _ => none
  | (k0, v) :: rest, k => if k0 = k then some v else kvGet rest k

/-- KV `put`: overwrite in place or append. -/
def kvPut {α : Type} : List (String × α) → String → α → List (String × α)
  | [], k, v => [(k, v)]
  | (k0, v0) :: rest, k, v =>
    if k0 = k then (k0, v) :: rest else (k0, v0) :: kvPut rest k v

/-- KV `delete`. -/
def kvDelete {α : Type} : List (String × α) → String → List (String × α)
  | [], _ => []
  | (k0, v0) :: rest, k => if k0 = k then rest else (k0, v0) :: kvDelete rest k

/-- The parsed form of a request (`req.formData()`), restricted to the
fields the handlers read. -/
structure ReqForm where
  email : Option String
  account : Option String
  title : Option String
  value : Option ℚ
  stage : Option String
  dealId : Option String
  notes : Option String
  metrics : Option ℚ
  eb : Option ℚ
  dc : Option ℚ
  dp : Option ℚ
  pp : Option ℚ
  ip : Option ℚ
  ch : Option ℚ
  co : Option ℚ

/-- An inbound request: method, path, the `apx` cookie value (the empty
string plays an absent cookie, as in `cookieGet`), and the form. -/
structure Req where
  method : String
  path : String
  apx : String
  form : ReqForm

/-- The handler's response, with page bodies elided. -/
inductive Resp where
  | redirect (loc : String) : Resp
  | text (body : String) (status : ℕ) : Resp
  | page : Resp
  | jsonBody (j : Json) : Resp

/-- Lines 56-66, combined: the session of a request, `none` when the
cookie is absent or no session record exists — exactly when
`requireSession` throws its 302-to-`/` response. -/
def getSessionUser (w : World) (req : Req) : Option SessionUser :=
  if req.apx = "" then none else kvGet w.sessions ("s:" ++ req.apx)

/-- One page of the deals store's prefix listing: up to 100 keys from the
cursor position, and the next cursor when more remain. -/
def kvListPage (keys : List String) (cursor : ℕ) : List String × Option ℕ :=
  ((keys.drop cursor).take 100,
    if cursor + 100 < keys.length then some (cursor + 100) else none)

/-- The `do ... while (cursor)` loop of `listDeals` (lines 72-76),
started at `cursor`. -/
def listKeysFrom (keys : List String) (cursor : ℕ) : List String :=
  if cursor + 100 < keys.length then
    (kvListPage keys cursor).1 ++ listKeysFrom keys (cursor + 100)
  else (kvListPage keys cursor).1
termination_by keys.length - cursor
decreasing_by omega

/-- The keys of the deals store that carry the given prefix, in store
order (the KV store's prefix enumeration). -/
def dealKeysWithPrefix (store : List (String × Deal)) (pre : String) : List String :=
  (store.map Prod.fst).filter (fun k => jsStartsWith k pre)

/-- Embedding of `listDeals` (lines 69-84): page through the prefix
listing until the cursor is exhausted, fetch each key, sort by
`updatedAt` descending (`Array.prototype.sort` is a stable sort whose
comparator `(a, b) => b.updatedAt - a.updatedAt` orders `a` before `b`
exactly when `b.updatedAt ≤ a.updatedAt`; every stored deal has a
numeric `updatedAt`, so the `|| 0` defaults never fire in the model). -/
def listDeals (w : World) (userId : String) : List Deal :=
  let keys := listKeysFrom (dealKeysWithPrefix w.deals ("deal:" ++ userId ++ ":")) 0
  let out := keys.filterMap (kvGet w.deals)
  out.mergeSort (fun a b => b.updatedAt ≤ a.updatedAt)

/-- `p.split("/").pop()` of the `/deal/{id}` route (line 231). -/
def lastSeg (p : String) : String := (p.splitOn "/").getLastD ""

/-- Positional destructuring `p.split("/")[i]` of the `/assessment`
route (line 300); a missing segment is `undefined`, which stringifies to
`"undefined"` inside the template literal key. -/
def seg (p : String) (i : ℕ) : String := ((p.splitOn "/").getD i "undefined")

/-- The ScoreSet built by `/assess` (lines 263-272): exactly eight named
entries, each `Number(f.get(...) || 0)`. -/
def assessScores (f : ReqForm) : ScoreSet :=
  [("metrics", f.metrics.getD 0), ("economic_buyer", f.eb.getD 0),
   ("decision_criteria", f.dc.getD 0), ("decision_process", f.dp.getD 0),
   ("paper_process", f.pp.getD 0), ("identified_pain", f.ip.getD 0),
   ("champion", f.ch.getD 0), ("competition", f.co.getD 0)]

/-- The payload built by `/assess` (line 273). -/
def assessPayload (deal : Deal) (f : ReqForm) : Payload :=
  { account := deal.account, title := deal.title, value := deal.value,
    stage := deal.stage, scores := assessScores f, notes := jsStrOr f.notes "" }

/-- `JSON.stringify`-visible form of the payload (stored inside the
assessment record). -/
def payloadJson (p : Payload) : Json :=
  Json.obj [("account", Json.str p.account), ("title", Json.str p.title),
    ("value", Json.num p.value), ("stage", Json.str p.stage),
    ("scores", Json.obj (p.scores.map (fun kv => (kv.1, Json.num kv.2)))),
    ("notes", Json.str p.notes)]

/-- Object spread `{...result}`: the members of an object, nothing for
the other values this program can produce here (the string-spread corner
of JavaScript is not exercised: a spread string would contribute indexed
characters). -/
def jsSpread (j : Json) : List (String × Json) :=
  match j with
  | Json.obj kvs => kvs
  | _ => []

/-- The assessment record `{...result, createdAt: ts, payload}` stored
on line 277. -/
def assessRecord (result : Json) (ts : ℕ) (payload : Payload) : Json :=
  Json.obj (objInsert (objInsert (jsSpread result) "createdAt" (Json.num ts))
    "payload" (payloadJson payload))

/-- Embedding of the router `handle` (lines 154-313).  `now` plays
`Date.now()`, `ym` the `yyyymm` usage key suffix, `fresh` the
`crypto.randomUUID()` value, and `env` the secrets/fetch environment of
`llmAssess`.  Branches appear in source order and the authentication
short-circuit of `requireSession` appears as the redirect-to-`/`
response. -/
def handle (w : World) (env : LlmEnv) (now : ℕ) (ym fresh : String) (req : Req) :
    World × Resp :=
  let p := req.path
  if req.method = "GET" ∧ p = "/" then
    match getSessionUser w req with
    | some _ => (w, Resp.redirect "/deals")
    | none => (w, Resp.page)
  else if req.method = "POST" ∧ p = "/dev-login" then
    let email := jsTrim (jsToLower (jsStrOr req.form.email ""))
    if email = "" then (w, Resp.text "Email required" 400)
    else
      ({ w with sessions :=
          (kvPut w.sessions ("s:" ++ fresh) { sub := "u:" ++ email, email := email }) },
        Resp.redirect "/deals")
  else if req.method = "POST" ∧ p = "/logout" then
    (if req.apx = "" then w
     else { w with sessions := kvDelete w.sessions ("s:" ++ req.apx) },
      Resp.redirect "/")
  else if req.method = "GET" ∧ p = "/deals" then
    match getSessionUser w req with
    | none => (w, Resp.redirect "/")
    | some user =>
      let _deals := listDeals w user.sub
      (w, Resp.page)
  else if req.method = "POST" ∧ p = "/deal" then
    match getSessionUser w req with
    | none => (w, Resp.redirect "/")
    | some user =>
      let doc : Deal :=
        { userId := user.sub, dealId := fresh,
          account := jsTrim (jsStrOr req.form.account ""),
          title := jsTrim (jsStrOr req.form.title ""),
          value := req.form.value.getD 0,
          stage := jsStrOr req.form.stage "Qualification",
          lastAssessmentId := none, lastTier := none, lastScore := none,
          updatedAt := now }
      ({ w with deals := kvPut w.deals ("deal:" ++ user.sub ++ ":" ++ fresh) doc },
        Resp.redirect ("/deal/" ++ fresh))
  else if req.method = "GET" ∧ jsStartsWith p "/deal/" = true then
    match getSessionUser w req with
    | none => (w, Resp.redirect "/")
    | some user =>
      match kvGet w.deals ("deal:" ++ user.sub ++ ":" ++ lastSeg p) with
      | none => (w, Resp.text "Not found" 404)
      | some _ => (w, Resp.page)
  else if req.method = "POST" ∧ p = "/assess" then
    match getSessionUser w req with
    | none => (w, Resp.redirect "/")
    | some user =>
      let dealId := jsStrOr req.form.dealId ""
      match kvGet w.deals ("deal:" ++ user.sub ++ ":" ++ dealId) with
      | none => (w, Resp.text "Deal missing" 404)
      | some deal =>
        let payload := assessPayload deal req.form
        let result := (llmAssess env payload).1
        let ts := now
        let w1 := { w with assessments :=
          (kvPut w.assessments
            ("assessment:" ++ user.sub ++ ":" ++ dealId ++ ":" ++ toString ts)
            (assessRecord result ts payload)) }
        let deal2 := { deal with
                       lastAssessmentId := some ts,
                       lastTier := jsField result "tier",
                       lastScore := jsField result "total_score",
                       updatedAt := ts }
        let w2 := { w1 with deals :=
          (kvPut w1.deals ("deal:" ++ user.sub ++ ":" ++ dealId) deal2) }
        let c := (kvGet w2.usage ("use:" ++ ym)).getD 0
        let w3 := { w2 with usage := kvPut w2.usage ("use:" ++ ym) (c + 1) }
        (w3, Resp.redirect ("/assessment/" ++ dealId ++ "/" ++ toString ts))
  else if req.method = "GET" ∧ jsStartsWith p "/assessment/" = true then
    match getSessionUser w req with
    | none => (w, Resp.redirect "/")
    | some user =>
      match kvGet w.assessments
        ("assessment:" ++ user.sub ++ ":" ++ seg p 2 ++ ":" ++ seg p 3) with
      | none => (w, Resp.text "Not found" 404)
      | some a => (w, Resp.jsonBody a)
  else if req.method = "GET" ∧ p = "/health" then
    (w, Resp.text "\x7b\"ok\":true\x7d" 200)
  else (w, Resp.text "Not found" 404)

/-! ### Concrete fixtures for the tests below -/

/-- A full eight-score payload. -/
def payloadFull : Payload :=
  { account := "Acme", title := "Big deal", value := 100000, stage := "Discovery",
    scores := [("metrics", 5), ("economic_buyer", 5), ("decision_criteria", 5),
      ("decision_process", 5), ("paper_process", 5), ("identified_pain", 5),
      ("champion", 5), ("competition", 5)], notes := "" }

/-- A well-shaped Anthropic messages response body carrying the given
model text. -/
def bodyWithText (t : String) : Json :=
  Json.obj [("content", Json.arr [Json.obj [("text", Json.str t)]])]

/-- A secret store holding only an Anthropic key. -/
def secretsAnthropic : String → Option String :=
  fun n => if n = "ANTHROPIC_API_KEY" then some "k" else none

/-- A model text that is valid JSON with out-of-enum fields. -/
def badFieldsText : String :=
  "\x7b\"tier\":\"Banana\",\"go_hold_nogo\":\"Maybe\",\"total_score\":999\x7d"

/-- Environment fixture: default provider, Anthropic key configured, the
response body decodes to a messages shape whose text is not JSON. -/
def envParseFail : LlmEnv :=
  { secrets := secretsAnthropic, http := some (some (bodyWithText "not json")) }

/-- Environment fixture: the model's text is valid JSON whose fields lie
outside the declared enums and bounds. -/
def envBadFields : LlmEnv :=
  { secrets := secretsAnthropic, http := some (some (bodyWithText badFieldsText)) }

/-- A deal fixture with a chosen id and `updatedAt`. -/
def dealFix (n upd : ℕ) : Deal :=
  { userId := "u", dealId := toString n, account := "a", title := "t", value := 1,
    stage := "q", lastAssessmentId := none, lastTier := none, lastScore := none,
    updatedAt := upd }

/-- A deals store holding two deals of user `u` (out of `updatedAt`
order) and one deal of another user. -/
def worldC8 : World :=
  { sessions := [], usage := [], assessments := [],
    deals := [("deal:u:1", dealFix 1 5), ("deal:v:9", dealFix 9 50),
      ("deal:u:2", dealFix 2 7)] }

/-- A session fixture. -/
def sessUser : SessionUser := { sub := "u:a@b.c", email := "a@b.c" }

/-- A form fixture for `/assess` with seven scores present and one
(`competition`) missing. -/
def formFix : ReqForm :=
  { email := none, account := none, title := none, value := none, stage := none,
    dealId := some "d1", notes := none, metrics := some 3, eb := some 3,
    dc := some 3, dp := some 3, pp := some 3, ip := some 3, ch := some 3,
    co := none }

/-- A world holding one session and one deal of that user. -/
def worldFix : World :=
  { sessions := [("s:sid1", sessUser)],
    deals := [("deal:" ++ sessUser.sub ++ ":d1", dealFix 1 5)],
    assessments := [], usage := [] }

/-- An authenticated `/assess` request fixture. -/
def reqAssess : Req :=
  { method := "POST", path := "/assess", apx := "sid1", form := formFix }

/-! ### Theorems -/

/-- `heuristicScore` exposes its tier through the `tier` property. -/
theorem jsFieldStr_heuristic_tier (input : Payload) :
    jsFieldStr (heuristicScore input) "tier" =
      some (heuristicTier (heuristicTotal (scoreVals input.scores))) := rfl

/-- `heuristicScore` exposes its decision through `go_hold_nogo`. -/
theorem jsFieldStr_heuristic_decision (input : Payload) :
    jsFieldStr (heuristicScore input) "go_hold_nogo" =
      some (heuristicDecision (heuristicTotal (scoreVals input.scores))) := rfl

/-- `heuristicScore` exposes its total through `total_score`. -/
theorem jsFieldNum_heuristic_total (input : Payload) :
    jsFieldNum (heuristicScore input) "total_score" =
      some ((heuristicTotal (scoreVals input.scores) : ℚ)) := rfl

/-- The tier string decides the threshold bucket. -/
theorem heuristicTier_eq_iff (total : ℤ) :
    (heuristicTier total = "Strong" ↔ 80 ≤ total) ∧
    (heuristicTier total = "Workable" ↔ 60 ≤ total ∧ total < 80) ∧
    (heuristicTier total = "Weak" ↔ total < 60) := by
  unfold heuristicTier
  split_ifs with h1 h2 <;> refine ⟨?_, ?_, ?_⟩ <;> simp <;> omega

/-- The decision string decides the threshold bucket. -/
theorem heuristicDecision_eq_iff (total : ℤ) :
    (heuristicDecision total = "Go" ↔ 80 ≤ total) ∧
    (heuristicDecision total = "Hold" ↔ 60 ≤ total ∧ total < 80) ∧
    (heuristicDecision total = "No-go" ↔ total < 60) := by
  unfold heuristicDecision
  split_ifs with h1 h2 <;> refine ⟨?_, ?_, ?_⟩ <;> simp <;> omega

/-- Claim C2: for every ScoreSet whose values all lie in [1,5], the
heuristic scorer's total (the rounded, clamped mean times twenty, with
the empty-mapping default of 3) lies in [0,100], and the tier/decision
exposed by the result match the fixed thresholds exactly, including at
the boundaries 60 and 80. -/
theorem claim_C2 (input : Payload)
    (hvals : ∀ v ∈ scoreVals input.scores, ∃ n : ℤ, v = (n : ℚ) ∧ 1 ≤ n ∧ n ≤ 5) :
    0 ≤ heuristicTotal (scoreVals input.scores) ∧
    heuristicTotal (scoreVals input.scores) ≤ 100 ∧
    (jsFieldStr (heuristicScore input) "tier" = some "Strong" ↔
      80 ≤ heuristicTotal (scoreVals input.scores)) ∧
    (jsFieldStr (heuristicScore input) "tier" = some "Workable" ↔
      60 ≤ heuristicTotal (scoreVals input.scores) ∧
        heuristicTotal (scoreVals input.scores) < 80) ∧
    (jsFieldStr (heuristicScore input) "tier" = some "Weak" ↔
      heuristicTotal (scoreVals input.scores) < 60) ∧
    (jsFieldStr (heuristicScore input) "go_hold_nogo" = some "Go" ↔
      80 ≤ heuristicTotal (scoreVals input.scores)) ∧
    (jsFieldStr (heuristicScore input) "go_hold_nogo" = some "Hold" ↔
      60 ≤ heuristicTotal (scoreVals input.scores) ∧
        heuristicTotal (scoreVals input.scores) < 80) ∧
    (jsFieldStr (heuristicScore input) "go_hold_nogo" = some "No-go" ↔
      heuristicTotal (scoreVals input.scores) < 60) ∧
    jsFieldNum (heuristicScore input) "total_score" =
      some ((heuristicTotal (scoreVals input.scores) : ℚ)) := by
  have hb : 0 ≤ heuristicTotal (scoreVals input.scores) ∧
      heuristicTotal (scoreVals input.scores) ≤ 100 := by
    unfold heuristicTotal
    constructor
    · exact le_max_left 0 _
    · exact max_le (by norm_num) (min_le_left 100 _)
  refine ⟨hb.1, hb.2, ?_, ?_, ?_, ?_, ?_, ?_, ?_⟩
  · rw [jsFieldStr_heuristic_tier]
    simpa using (heuristicTier_eq_iff (heuristicTotal (scoreVals input.scores))).1
  · rw [jsFieldStr_heuristic_tier]
    simpa using (heuristicTier_eq_iff (heuristicTotal (scoreVals input.scores))).2.1
  · rw [jsFieldStr_heuristic_tier]
    simpa using (heuristicTier_eq_iff (heuristicTotal (scoreVals input.scores))).2.2
  · rw [jsFieldStr_heuristic_decision]
    simpa using (heuristicDecision_eq_iff (heuristicTotal (scoreVals input.scores))).1
  · rw [jsFieldStr_heuristic_decision]
    simpa using (heuristicDecision_eq_iff (heuristicTotal (scoreVals input.scores))).2.1
  · rw [jsFieldStr_heuristic_decision]
    simpa using (heuristicDecision_eq_iff (heuristicTotal (scoreVals input.scores))).2.2
  · exact jsFieldNum_heuristic_total input

/-- Witness for C2 at a concrete all-fives ScoreSet. -/
theorem claim_C2_witness :
    (∀ v ∈ scoreVals [("metrics", (5 : ℚ)), ("champion", 4)],
      ∃ n : ℤ, v = (n : ℚ) ∧ 1 ≤ n ∧ n ≤ 5) ∧
    (jsFieldStr (heuristicScore ⟨"a", "t", 1, "q", [("metrics", 5), ("champion", 4)], ""⟩)
        "tier" = some "Strong" ↔
      80 ≤ heuristicTotal (scoreVals [("metrics", (5 : ℚ)), ("champion", 4)])) := by
  have hv : ∀ v ∈ scoreVals [("metrics", (5 : ℚ)), ("champion", 4)],
      ∃ n : ℤ, v = (n : ℚ) ∧ 1 ≤ n ∧ n ≤ 5 := by
    intro v hvmem
    simp only [scoreVals, List.map, List.mem_cons, List.not_mem_nil, or_false] at hvmem
    rcases hvmem with h | h
    · exact ⟨5, by rw [h]; norm_num, by norm_num, by norm_num⟩
    · exact ⟨4, by rw [h]; norm_num, by norm_num, by norm_num⟩
  exact ⟨hv, (claim_C2 ⟨"a", "t", 1, "q", [("metrics", 5), ("champion", 4)], ""⟩ hv).2.2.1⟩

/-- Claim C9: the empty ScoreSet yields average 3, total 60, tier
Workable, decision Hold, and every heuristic result carries the fixed
marker string in its `analysis` property. -/
theorem claim_C9 (input : Payload) :
    (input.scores = [] →
      heuristicAvg (scoreVals input.scores) = 3 ∧
      heuristicTotal (scoreVals input.scores) = 60 ∧
      heuristicScore input =
        Json.obj [("tier", Json.str "Workable"), ("go_hold_nogo", Json.str "Hold"),
          ("total_score", Json.num 60),
          ("analysis", Json.str "Heuristic fallback scoring.")]) ∧
    jsFieldStr (heuristicScore input) "analysis" = some "Heuristic fallback scoring." := by
  constructor
  · intro h
    have h60 : heuristicTotal (scoreVals ([] : ScoreSet)) = 60 := by
      norm_num [heuristicTotal, heuristicAvg, scoreVals, jsRound, min_def, max_def]
    refine ⟨by rw [h]; rfl, by rw [h]; exact h60, ?_⟩
    rw [show heuristicScore input =
        Json.obj [("tier", Json.str (heuristicTier (heuristicTotal (scoreVals input.scores)))),
          ("go_hold_nogo",
            Json.str (heuristicDecision (heuristicTotal (scoreVals input.scores)))),
          ("total_score", Json.num ((heuristicTotal (scoreVals input.scores) : ℚ))),
          ("analysis", Json.str "Heuristic fallback scoring.")] from rfl, h, h60]
    norm_num [heuristicTier, heuristicDecision]
  · rfl

/-- Witness for C9 at the empty ScoreSet. -/
theorem claim_C9_witness :
    heuristicTotal (scoreVals ([] : ScoreSet)) = 60 ∧
    jsFieldStr (heuristicScore ⟨"a", "t", 1, "q", [], ""⟩) "analysis" =
      some "Heuristic fallback scoring." :=
  ⟨((claim_C9 ⟨"a", "t", 1, "q", [], ""⟩).1 rfl).2.1, (claim_C9 ⟨"a", "t", 1, "q", [], ""⟩).2⟩

/-- Claim C3: with no provider secret configured (so the default
provider is selected) and no Anthropic API key configured, `llmAssess`
returns exactly the heuristic result and issues no outbound call. -/
theorem claim_C3 (env : LlmEnv) (input : Payload)
    (hp : env.secrets "LLM_PROVIDER" = none)
    (hk : env.secrets "ANTHROPIC_API_KEY" = none) :
    llmAssess env input = (heuristicScore input, false) := by
  unfold llmAssess
  rw [hp, hk]
  rfl

/-- Witness for C3 at a concrete empty environment. -/
theorem claim_C3_witness :
    llmAssess ⟨fun _ => none, none⟩ ⟨"a", "t", 1, "q", [("metrics", 5)], ""⟩ =
      (heuristicScore ⟨"a", "t", 1, "q", [("metrics", 5)], ""⟩, false) :=
  claim_C3 ⟨fun _ => none, none⟩ ⟨"a", "t", 1, "q", [("metrics", 5)], ""⟩ rfl rfl

/-- Claim C10: every ScoreSet handed to the scoring pipeline by
`/assess` has exactly eight entries, with missing or empty form fields
coerced to 0, so the empty-mapping default of the heuristic scorer is
unreachable from this endpoint (the average is always a sum over eight),
and an all-missing submission scores total 0, tier Weak, decision No-go. -/
theorem claim_C10 (f : ReqForm) (p : Payload) (hp : p.scores = assessScores f) :
    (assessScores f).length = 8 ∧
    heuristicAvg (scoreVals (assessScores f)) = (scoreVals (assessScores f)).sum / 8 ∧
    (f.metrics = none ∧ f.eb = none ∧ f.dc = none ∧ f.dp = none ∧ f.pp = none ∧
        f.ip = none ∧ f.ch = none ∧ f.co = none →
      jsFieldNum (heuristicScore p) "total_score" = some 0 ∧
      jsFieldStr (heuristicScore p) "tier" = some "Weak" ∧
      jsFieldStr (heuristicScore p) "go_hold_nogo" = some "No-go") := by
  refine ⟨rfl, ?_, ?_⟩
  · simp [heuristicAvg, scoreVals, assessScores]
  · rintro ⟨h1, h2, h3, h4, h5, h6, h7, h8⟩
    have hz : p.scores = [("metrics", (0 : ℚ)), ("economic_buyer", 0),
        ("decision_criteria", 0), ("decision_process", 0), ("paper_process", 0),
        ("identified_pain", 0), ("champion", 0), ("competition", 0)] := by
      rw [hp]
      simp [assessScores, h1, h2, h3, h4, h5, h6, h7, h8]
    have h0 : heuristicTotal (scoreVals p.scores) = 0 := by
      rw [hz]
      norm_num [heuristicTotal, heuristicAvg, scoreVals, jsRound, min_def, max_def]
    refine ⟨?_, ?_, ?_⟩
    · rw [jsFieldNum_heuristic_total, h0]
      norm_num
    · rw [jsFieldStr_heuristic_tier, h0]
      rfl
    · rw [jsFieldStr_heuristic_decision, h0]
      rfl

/-- Witness for C10 at the all-missing form. -/
theorem claim_C10_witness :
    jsFieldStr (heuristicScore ⟨"a", "t", 1, "q",
      assessScores ⟨none, none, none, none, none, none, none, none, none, none,
        none, none, none, none, none⟩, ""⟩) "tier" = some "Weak" :=
  ((claim_C10 ⟨none, none, none, none, none, none, none, none, none, none, none,
      none, none, none, none⟩
    ⟨"a", "t", 1, "q", assessScores ⟨none, none, none, none, none, none, none,
      none, none, none, none, none, none, none, none⟩, ""⟩ rfl).2.2
    ⟨rfl, rfl, rfl, rfl, rfl, rfl, rfl, rfl⟩).2.1

/-- Claim C1 counterexample: on the external call path (the fetch was
issued), with a provider text that fails JSON parsing, `llmAssess`
returns `safeJSON`'s fixed fallback object, not the Heuristic Scorer's
result for the same input, so the claim as stated is false. -/
theorem claim_C1_counterexample :
    (llmAssess envParseFail payloadFull).2 = true ∧
    (llmAssess envParseFail payloadFull).1 = fallbackJson ∧
    jsFieldStr (llmAssess envParseFail payloadFull).1 "analysis" =
      some "Fallback result." ∧
    jsFieldStr (heuristicScore payloadFull) "analysis" =
      some "Heuristic fallback scoring." ∧
    (llmAssess envParseFail payloadFull).1 ≠ heuristicScore payloadFull := by
  refine ⟨rfl, rfl, rfl, rfl, ?_⟩
  intro h
  have e1 : jsFieldStr (llmAssess envParseFail payloadFull).1 "analysis" =
      some "Fallback result." := rfl
  rw [h] at e1
  have e2 : jsFieldStr (heuristicScore payloadFull) "analysis" =
      some "Heuristic fallback scoring." := rfl
  rw [e1] at e2
  exact absurd e2 (by decide)

/-- Every `llmText` outcome is the heuristic result or a `safeJSON`
parse. -/
theorem llmText_heuristic_or_safe (input : Payload) (txt : Option String) :
    (llmText input txt).1 = heuristicScore input ∨
      ∃ t, (llmText input txt).1 = safeJSON t := by
  rcases txt with _ | t
  · exact Or.inl rfl
  · refine Or.inr ⟨t, ?_⟩
    simp only [llmText]

/-- Every `llmAttempt` outcome is the heuristic result or a `safeJSON`
parse. -/
theorem llmAttempt_heuristic_or_safe (input : Payload) (extract : Json → Option String)
    (http : Option (Option Json)) :
    (llmAttempt input extract http).1 = heuristicScore input ∨
      ∃ t, (llmAttempt input extract http).1 = safeJSON t := by
  rcases http with _ | oj
  · exact Or.inl rfl
  · rcases oj with _ | j
    · exact Or.inl rfl
    · exact llmText_heuristic_or_safe input (extract j)

/-- Every `llmWithKey` outcome is the heuristic result or a `safeJSON`
parse. -/
theorem llmWithKey_heuristic_or_safe (input : Payload) (key : Option String)
    (extract : Json → Option String) (http : Option (Option Json)) :
    (llmWithKey input key extract http).1 = heuristicScore input ∨
      ∃ t, (llmWithKey input key extract http).1 = safeJSON t := by
  rcases key with _ | k
  · exact Or.inl rfl
  · simp only [llmWithKey]
    by_cases hk : k = ""
    · rw [if_pos hk]
      exact Or.inl rfl
    · rw [if_neg hk]
      exact llmAttempt_heuristic_or_safe input extract http

/-- A network failure or an undecodable body always ends in the
heuristic result, whatever the key. -/
theorem llmWithKey_absorbs (input : Payload) (key : Option String)
    (extract : Json → Option String) (http : Option (Option Json))
    (h : http = none ∨ http = some none) :
    (llmWithKey input key extract http).1 = heuristicScore input := by
  rcases key with _ | k
  · rfl
  · simp only [llmWithKey]
    by_cases hk : k = ""
    · rw [if_pos hk]
    · rw [if_neg hk]
      rcases h with h | h <;> rw [h] <;> rfl

/-- Claim C1 amended: `llmAssess` never propagates a raw failure — its
result is always either the heuristic result or `safeJSON` of some
provider text; failures thrown inside the `try` (network failure,
undecodable response body, and the missing-key paths) yield the
heuristic result, while a provider text that fails JSON parsing yields
`safeJSON`'s fixed fallback object and a response of unexpected shape
yields the parse of the literal `"{}"` (the empty object), neither of
which is the heuristic result in general. -/
theorem claim_C1_amended (env : LlmEnv) (input : Payload) :
    ((llmAssess env input).1 = heuristicScore input ∨
      ∃ txt, (llmAssess env input).1 = safeJSON txt) ∧
    (env.http = none → (llmAssess env input).1 = heuristicScore input) ∧
    (env.http = some none → (llmAssess env input).1 = heuristicScore input) := by
  refine ⟨?_, ?_, ?_⟩
  · simp only [llmAssess]
    by_cases hprov : jsStrOr (env.secrets "LLM_PROVIDER") "anthropic" = "openai"
    · rw [if_pos hprov]
      exact llmWithKey_heuristic_or_safe input _ openaiText env.http
    · rw [if_neg hprov]
      exact llmWithKey_heuristic_or_safe input _ anthropicText env.http
  · intro hh
    simp only [llmAssess, hh]
    by_cases hprov : jsStrOr (env.secrets "LLM_PROVIDER") "anthropic" = "openai"
    · rw [if_pos hprov]
      exact llmWithKey_absorbs input _ openaiText none (Or.inl rfl)
    · rw [if_neg hprov]
      exact llmWithKey_absorbs input _ anthropicText none (Or.inl rfl)
  · intro hh
    simp only [llmAssess, hh]
    by_cases hprov : jsStrOr (env.secrets "LLM_PROVIDER") "anthropic" = "openai"
    · rw [if_pos hprov]
      exact llmWithKey_absorbs input _ openaiText (some none) (Or.inr rfl)
    · rw [if_neg hprov]
      exact llmWithKey_absorbs input _ anthropicText (some none) (Or.inr rfl)

/-- Witness for the amended C1 at a concrete failing environment. -/
theorem claim_C1_amended_witness :
    (llmAssess ⟨fun n => if n = "ANTHROPIC_API_KEY" then some "k" else none, none⟩
      payloadFull).1 = heuristicScore payloadFull :=
  (claim_C1_amended
    ⟨fun n => if n = "ANTHROPIC_API_KEY" then some "k" else none, none⟩
    payloadFull).2.1 rfl

/-- Claim C5 counterexample: after a provider call whose text parses,
`llmAssess` returns the parsed value verbatim — no field-wise validation
replaces out-of-enum tiers/decisions or an out-of-range score, so the
claim as stated is false. -/
theorem claim_C5_counterexample :
    jsFieldStr (llmAssess envBadFields payloadFull).1 "tier" = some "Banana" ∧
    jsFieldStr (llmAssess envBadFields payloadFull).1 "tier" ≠ some "Strong" ∧
    jsFieldStr (llmAssess envBadFields payloadFull).1 "tier" ≠ some "Workable" ∧
    jsFieldStr (llmAssess envBadFields payloadFull).1 "tier" ≠ some "Weak" ∧
    jsFieldStr (llmAssess envBadFields payloadFull).1 "go_hold_nogo" = some "Maybe" ∧
    jsFieldNum (llmAssess envBadFields payloadFull).1 "total_score" = some 999 := by
  have hB : jsFieldStr (llmAssess envBadFields payloadFull).1 "tier" = some "Banana" := rfl
  refine ⟨hB, ?_, ?_, ?_, rfl, by decide⟩ <;>
    exact fun h => absurd (hB.symm.trans h) (by decide)

/-- Claim C5 amended: the LLM-path result after a decoded provider
response is exactly `safeJSON` of the extracted model text (hence the
verbatim parsed value when the text parses, and the whole fixed fallback
object only when it does not), or the heuristic result when the
extraction chain throws; no per-field defaulting or enum/bounds
validation takes place. -/
theorem claim_C5_amended (env : LlmEnv) (input : Payload) (j : Json) (k : String)
    (hp : env.secrets "LLM_PROVIDER" = none)
    (hk : env.secrets "ANTHROPIC_API_KEY" = some k) (hk2 : k ≠ "")
    (hh : env.http = some (some j)) :
    (∃ s, anthropicText j = some s ∧ (llmAssess env input).1 = safeJSON s) ∨
    (anthropicText j = none ∧ (llmAssess env input).1 = heuristicScore input) := by
  simp only [llmAssess, hp, hk, hh, jsStrOr]
  rw [if_neg (by decide : ¬("anthropic" = "openai"))]
  simp only [llmWithKey]
  rw [if_neg hk2]
  simp only [llmAttempt]
  rcases ht : anthropicText j with _ | s
  · exact Or.inr ⟨rfl, rfl⟩
  · refine Or.inl ⟨s, rfl, ?_⟩
    simp only [llmText]

/-- Witness for the amended C5 at the bad-fields environment. -/
theorem claim_C5_amended_witness :
    (∃ s, anthropicText (bodyWithText badFieldsText) = some s ∧
      (llmAssess envBadFields payloadFull).1 = safeJSON s) ∨
    (anthropicText (bodyWithText badFieldsText) = none ∧
      (llmAssess envBadFields payloadFull).1 = heuristicScore payloadFull) :=
  claim_C5_amended envBadFields payloadFull (bodyWithText badFieldsText) "k"
    rfl rfl (by decide) rfl

/-- A key found after `kvPut` returns the value just put. -/
theorem kvGet_kvPut_self {α : Type} (st : List (String × α)) (k : String) (v : α) :
    kvGet (kvPut st k v) k = some v := by
  induction st with
  | nil => simp [kvPut, kvGet]
  | cons hd tl ih =>
    obtain ⟨k0, v0⟩ := hd
    by_cases h : k0 = k
    · simp [kvPut, kvGet, h]
    · simp only [kvPut, kvGet, if_neg h]
      exact ih

/-- Two strings cannot be equal when exactly one carries a prefix. -/
theorem jsStartsWith_ne {p q pre : String} (h : jsStartsWith p pre = true)
    (hq : jsStartsWith q pre = false) : p ≠ q := by
  intro e
  subst e
  rw [hq] at h
  exact Bool.noConfusion h

/-- A path under `/assessment/` is not under `/deal/`. -/
theorem assessment_not_deal {p : String}
    (h : jsStartsWith p "/assessment/" = true) : jsStartsWith p "/deal/" = false := by
  by_contra hb
  have hd : jsStartsWith p "/deal/" = true := by
    cases hdd : jsStartsWith p "/deal/"
    · exact absurd hdd hb
    · rfl
  unfold jsStartsWith at h hd
  have h1 : "/assessment/".toList <+: p.toList := List.isPrefixOf_iff_prefix.mp h
  have h2 : "/deal/".toList <+: p.toList := List.isPrefixOf_iff_prefix.mp hd
  have h3 : "/deal/".toList <+: "/assessment/".toList :=
    List.prefix_of_prefix_length_le h2 h1 (by decide)
  have h4 : "/deal/".toList.isPrefixOf "/assessment/".toList = true :=
    List.isPrefixOf_iff_prefix.mpr h3
  exact absurd h4 (by decide)

/-- Claim C6: every request to `/deals`, `/deal/{id}`, `/assess` or
`/assessment/{dealId}/{ts}` without a valid session (no cookie or no
stored session record, i.e. `getSessionUser` is `none`) is answered with
the 302 redirect to `/`, not an error response. -/
theorem claim_C6 (w : World) (env : LlmEnv) (now : ℕ) (ym fresh : String) (req : Req)
    (hauth : getSessionUser w req = none)
    (hroute : (req.method = "GET" ∧ req.path = "/deals") ∨
      (req.method = "GET" ∧ jsStartsWith req.path "/deal/" = true) ∨
      (req.method = "POST" ∧ req.path = "/assess") ∨
      (req.method = "GET" ∧ jsStartsWith req.path "/assessment/" = true)) :
    (handle w env now ym fresh req).2 = Resp.redirect "/" := by
  rcases hroute with ⟨hm, hp⟩ | ⟨hm, hp⟩ | ⟨hm, hp⟩ | ⟨hm, hp⟩
  · simp only [handle, hm, hp, hauth]
    rfl
  · have hne1 : req.path ≠ "/" := jsStartsWith_ne hp (by decide)
    have hne4 : req.path ≠ "/deals" := jsStartsWith_ne hp (by decide)
    simp only [handle, hm, hauth]
    rw [if_neg (fun hc => hne1 hc.2),
      if_neg (fun hc => absurd hc.1 (by decide)),
      if_neg (fun hc => absurd hc.1 (by decide)),
      if_neg (fun hc => hne4 hc.2),
      if_neg (fun hc => absurd hc.1 (by decide))]
    simp [hp]
  · simp only [handle, hm, hp, hauth]
    rfl
  · have hne1 : req.path ≠ "/" := jsStartsWith_ne hp (by decide)
    have hne4 : req.path ≠ "/deals" := jsStartsWith_ne hp (by decide)
    have hnd : jsStartsWith req.path "/deal/" = false := assessment_not_deal hp
    simp only [handle, hm, hauth]
    rw [if_neg (fun hc => hne1 hc.2),
      if_neg (fun hc => absurd hc.1 (by decide)),
      if_neg (fun hc => absurd hc.1 (by decide)),
      if_neg (fun hc => hne4 hc.2),
      if_neg (fun hc => absurd hc.1 (by decide)),
      if_neg (fun hc => by rw [hnd] at hc; exact Bool.noConfusion hc.2),
      if_neg (fun hc => absurd hc.1 (by decide))]
    simp [hp]

/-- Witness for C6: an unauthenticated `GET /deals` is redirected. -/
theorem claim_C6_witness :
    (handle worldFix ⟨fun _ => none, none⟩ 0 "202610" "f"
      ⟨"GET", "/deals", "", formFix⟩).2 = Resp.redirect "/" :=
  claim_C6 worldFix ⟨fun _ => none, none⟩ 0 "202610" "f"
    ⟨"GET", "/deals", "", formFix⟩ rfl (Or.inl ⟨rfl, rfl⟩)

/-- Claim C7: a successful `/assess` submission persists the full
assessment record (the result object spread together with `createdAt`
and the payload) under the key built from the user, the deal and the
timestamp; the same deal is then updated with `lastAssessmentId`,
`lastTier`, `lastScore` and `updatedAt` taken from that result and
timestamp; and the timestamp is returned to the caller inside the
redirect location. -/
theorem claim_C7 (w : World) (env : LlmEnv) (now : ℕ) (ym fresh : String) (req : Req)
    (user : SessionUser) (deal : Deal)
    (hm : req.method = "POST") (hp : req.path = "/assess")
    (hs : getSessionUser w req = some user)
    (hd : kvGet w.deals ("deal:" ++ user.sub ++ ":" ++ jsStrOr req.form.dealId "") =
      some deal) :
    kvGet (handle w env now ym fresh req).1.assessments
        ("assessment:" ++ user.sub ++ ":" ++ jsStrOr req.form.dealId "" ++ ":" ++
          toString now) =
      some (assessRecord ((llmAssess env (assessPayload deal req.form)).1) now
        (assessPayload deal req.form)) ∧
    kvGet (handle w env now ym fresh req).1.deals
        ("deal:" ++ user.sub ++ ":" ++ jsStrOr req.form.dealId "") =
      some { deal with
             lastAssessmentId := some now,
             lastTier := jsField ((llmAssess env (assessPayload deal req.form)).1) "tier",
             lastScore :=
               jsField ((llmAssess env (assessPayload deal req.form)).1) "total_score",
             updatedAt := now } ∧
    (handle w env now ym fresh req).2 =
      Resp.redirect ("/assessment/" ++ jsStrOr req.form.dealId "" ++ "/" ++ toString now) := by
  simp only [handle, hm, hp, hs, hd]
  exact ⟨kvGet_kvPut_self _ _ _, kvGet_kvPut_self _ _ _, rfl⟩

/-- Witness for C7 at a concrete world, session and deal. -/
theorem claim_C7_witness :
    (handle worldFix ⟨fun _ => none, none⟩ 7 "202610" "f" reqAssess).2 =
      Resp.redirect ("/assessment/" ++ jsStrOr reqAssess.form.dealId "" ++ "/" ++
        toString 7) :=
  (claim_C7 worldFix ⟨fun _ => none, none⟩ 7 "202610" "f" reqAssess sessUser
    (dealFix 1 5) rfl rfl rfl rfl).2.2

/-- The cursor loop started at any position collects every remaining
key: paging is exhaustive however many pages there are. -/
theorem listKeysFrom_eq (keys : List String) (cursor : ℕ) :
    listKeysFrom keys cursor = keys.drop cursor := by
  induction cursor using listKeysFrom.induct keys with
  | case1 cursor h ih =>
    rw [listKeysFrom, if_pos h]
    simp only [kvListPage]
    rw [ih, ← List.drop_drop, List.take_append_drop]
  | case2 cursor h =>
    rw [listKeysFrom, if_neg h]
    simp only [kvListPage]
    apply List.take_of_length_le
    rw [List.length_drop]
    omega

/-- Fetching each key of a filtered key listing from a store with
distinct keys yields exactly the values of the matching entries. -/
theorem filterMap_kvGet_filter {α : Type} (st : List (String × α)) (q : String → Bool)
    (hnd : (st.map Prod.fst).Nodup) :
    ((st.map Prod.fst).filter q).filterMap (kvGet st) =
      (st.filter (fun kv => q kv.1)).map Prod.snd := by
  induction st with
  | nil => rfl
  | cons hd tl ih =>
    obtain ⟨k, v⟩ := hd
    simp only [List.map_cons, List.nodup_cons] at hnd
    obtain ⟨hk, hnd'⟩ := hnd
    have hcong : ∀ x ∈ (tl.map Prod.fst).filter q, kvGet ((k, v) :: tl) x = kvGet tl x := by
      intro x hx
      have hxmem : x ∈ tl.map Prod.fst := List.mem_of_mem_filter hx
      have hne : ¬(k = x) := fun e => hk (e ▸ hxmem)
      simp [kvGet, hne]
    by_cases hq : q k = true
    · rw [List.map_cons, List.filter_cons_of_pos hq,
        List.filterMap_cons_some (show kvGet ((k, v) :: tl) k = some v by simp [kvGet]),
        List.filterMap_congr hcong, ih hnd']
      simp [List.filter_cons, hq]
    · rw [List.map_cons, List.filter_cons_of_neg (by simpa using hq),
        List.filterMap_congr hcong, ih hnd']
      simp [List.filter_cons, hq]

/-- Claim C8: `listDeals` returns all of the user's deal records — it
pages through the store's prefix listing with the cursor until
exhaustion — and the result is sorted by `updatedAt` descending. -/
theorem claim_C8 (w : World) (userId : String)
    (hnd : (w.deals.map Prod.fst).Nodup) :
    (listDeals w userId).Perm
      ((w.deals.filter
        (fun kv => jsStartsWith kv.1 ("deal:" ++ userId ++ ":"))).map Prod.snd) ∧
    List.Sorted (fun a b => b.updatedAt ≤ a.updatedAt) (listDeals w userId) := by
  constructor
  · simp only [listDeals, listKeysFrom_eq, List.drop_zero, dealKeysWithPrefix]
    rw [filterMap_kvGet_filter _ _ hnd]
    exact List.mergeSort_perm _ _
  · simp only [listDeals]
    have hs := @List.sorted_mergeSort Deal
      (fun (a b : Deal) => decide (b.updatedAt ≤ a.updatedAt))
      (fun a b c hab hbc => by
        simp only [decide_eq_true_eq] at hab hbc ⊢
        omega)
      (fun a b => by
        simp only [Bool.or_eq_true, decide_eq_true_eq]
        omega)
      ((listKeysFrom (dealKeysWithPrefix w.deals ("deal:" ++ userId ++ ":")) 0).filterMap
        (kvGet w.deals))
    exact hs.imp (fun h => of_decide_eq_true h)

/-- Witness for C8 at a concrete store with deals of two users. -/
theorem claim_C8_witness :
    (listDeals worldC8 "u").Perm
      ((worldC8.deals.filter
        (fun kv => jsStartsWith kv.1 ("deal:" ++ "u" ++ ":"))).map Prod.snd) ∧
    List.Sorted (fun a b => b.updatedAt ≤ a.updatedAt) (listDeals worldC8 "u") :=
  claim_C8 worldC8 "u" (by decide)

/-! ### Metatheory of the embedded `JSON.parse`

These lemmas characterise the consumed region of a successful parse:
its first character (a value-start character, never a backtick and never
a letter of `json`), its last character (a closing quote/bracket, digit
or literal letter, never a backtick), and its indifference to trailing
whitespace padding.  They justify that `safeJSON`'s fence stripping is
the identity on fence-free valid JSON and recovers the wrapped text of a
fenced one. -/

/-- All-whitespace character lists (the JSON grammar's whitespace). -/
def WsL (l : List Char) : Prop := ∀ c ∈ l, isJsonWs c = true

/-- The characters that can start a JSON value. -/
def ValueStart (c : Char) : Prop :=
  c = 'n' ∨ c = 't' ∨ c = 'f' ∨ c = '"' ∨ c = '[' ∨ c = '\x7b' ∨ c = '-' ∨
    c.isDigit = true

/-- The characters that can end a JSON value. -/
def EndC (c : Char) : Prop :=
  c = '"' ∨ c = '\x7d' ∨ c = ']' ∨ c.isDigit = true ∨ c = 'l' ∨ c = 'e'

/-- JSON whitespace is not a digit. -/
theorem ws_not_digit {c : Char} (h : isJsonWs c = true) : c.isDigit = false := by
  simp only [isJsonWs, Bool.or_eq_true, beq_iff_eq] at h
  rcases h with ((h | h) | h) | h <;> subst h <;> rfl

/-- JSON whitespace is JavaScript-trim whitespace. -/
theorem jsonWs_isJsWs {c : Char} (h : isJsonWs c = true) : isJsWs c = true := by
  simp [isJsWs, h]

/-- Skipping an all-whitespace list is empty. -/
theorem skipWs_of_wsL {l : List Char} (h : WsL l) : skipWs l = [] := by
  simp only [skipWs, List.dropWhile_eq_nil_iff]
  exact h

/-- Whitespace on the left of an append is skipped. -/
theorem skipWs_append_wsL {l1 l2 : List Char} (h : WsL l1) :
    skipWs (l1 ++ l2) = skipWs l2 := by
  induction l1 with
  | nil => rfl
  | cons c cs ih =>
    have hc : isJsonWs c = true := h c (List.mem_cons_self c cs)
    simp only [List.cons_append, skipWs, List.dropWhile_cons, hc, if_true]
    exact ih (fun x hx => h x (List.mem_cons_of_mem c hx))

/-- Skipping distributes over an append when something survives on the
left. -/
theorem skipWs_append_of_ne_nil {l1 l2 : List Char} (h : skipWs l1 ≠ []) :
    skipWs (l1 ++ l2) = skipWs l1 ++ l2 := by
  simp only [skipWs, List.dropWhile_append]
  rcases he : (l1.dropWhile isJsonWs).isEmpty with _ | _
  · simp
  · exact absurd (List.isEmpty_iff.mp he) h


/-- The string-body parser consumes up to and including a closing
quote. -/
theorem parseStringRestAux_ends (acc cs : List Char) (s : String) (r : List Char)
    (h : parseStringRestAux acc cs = some (s, r)) : ∃ pre, cs = pre ++ '"' :: r := by
  induction acc, cs using parseStringRestAux.induct generalizing s r with
  | case1 acc =>
    rw [parseStringRestAux.eq_def] at h
    simp at h
  | case2 acc rest =>
    rw [parseStringRestAux.eq_def] at h
    simp at h
    exact ⟨[], by rw [h.2]; rfl⟩
  | case3 acc hq =>
    rw [parseStringRestAux.eq_def] at h
    simp at h
  | case4 acc h1 h2 h3 h4 rest3 n hx hq ih =>
    rw [parseStringRestAux.eq_def] at h
    simp [hx] at h
    obtain ⟨pre, hp⟩ := ih _ _ h
    exact ⟨'\\' :: 'u' :: h1 :: h2 :: h3 :: h4 :: pre, by simp [hp]⟩
  | case5 acc h1 h2 h3 h4 rest3 hx hq =>
    rw [parseStringRestAux.eq_def] at h
    simp [hx] at h
  | case6 acc rest2 hshort hq =>
    rcases rest2 with _ | ⟨a, _ | ⟨b, _ | ⟨c, _ | ⟨d, r3⟩⟩⟩⟩
    · rw [parseStringRestAux.eq_def] at h
      simp at h
    · rw [parseStringRestAux.eq_def] at h
      simp at h
    · rw [parseStringRestAux.eq_def] at h
      simp at h
    · rw [parseStringRestAux.eq_def] at h
      simp at h
    · exact absurd rfl (fun e => hshort a b c d r3 e)
  | case7 acc e rest2 hneu ch hesc hq ih =>
    rw [parseStringRestAux.eq_def] at h
    simp [hneu, hesc] at h
    obtain ⟨pre, hp⟩ := ih _ _ h
    exact ⟨'\\' :: e :: pre, by simp [hp]⟩
  | case8 acc e rest2 hneu hesc hq =>
    rw [parseStringRestAux.eq_def] at h
    simp [hneu, hesc] at h
  | case9 acc c rest hne1 hne2 hlt =>
    rw [parseStringRestAux.eq_def] at h
    simp [hne1, hne2, hlt] at h
  | case10 acc c rest hne1 hne2 hge ih =>
    rw [parseStringRestAux.eq_def] at h
    simp [hne1, hne2, hge] at h
    obtain ⟨pre, hp⟩ := ih _ _ h
    exact ⟨c :: pre, by simp [hp]⟩

/-- The string-body parser is insensitive to appended input. -/
theorem parseStringRestAux_append (acc cs : List Char) (s : String) (r ss : List Char)
    (h : parseStringRestAux acc cs = some (s, r)) :
    parseStringRestAux acc (cs ++ ss) = some (s, r ++ ss) := by
  induction acc, cs using parseStringRestAux.induct generalizing s r with
  | case1 acc =>
    rw [parseStringRestAux.eq_def] at h
    simp at h
  | case2 acc rest =>
    rw [parseStringRestAux.eq_def] at h
    simp at h
    rw [List.cons_append, parseStringRestAux.eq_def]
    simp
    exact ⟨h.1, by rw [h.2]⟩
  | case3 acc hq =>
    rw [parseStringRestAux.eq_def] at h
    simp at h
  | case4 acc h1 h2 h3 h4 rest3 n hx hq ih =>
    rw [parseStringRestAux.eq_def] at h
    simp [hx] at h
    simp only [List.cons_append]
    rw [parseStringRestAux.eq_def]
    simp [hx]
    exact ih _ _ h
  | case5 acc h1 h2 h3 h4 rest3 hx hq =>
    rw [parseStringRestAux.eq_def] at h
    simp [hx] at h
  | case6 acc rest2 hshort hq =>
    rcases rest2 with _ | ⟨a, _ | ⟨b, _ | ⟨c, _ | ⟨d, r3⟩⟩⟩⟩
    · rw [parseStringRestAux.eq_def] at h
      simp at h
    · rw [parseStringRestAux.eq_def] at h
      simp at h
    · rw [parseStringRestAux.eq_def] at h
      simp at h
    · rw [parseStringRestAux.eq_def] at h
      simp at h
    · exact absurd rfl (fun e => hshort a b c d r3 e)
  | case7 acc e rest2 hneu ch hesc hq ih =>
    rw [parseStringRestAux.eq_def] at h
    simp [hneu, hesc] at h
    simp only [List.cons_append]
    rw [parseStringRestAux.eq_def]
    simp [hneu, hesc]
    exact ih _ _ h
  | case8 acc e rest2 hneu hesc hq =>
    rw [parseStringRestAux.eq_def] at h
    simp [hneu, hesc] at h
  | case9 acc c rest hne1 hne2 hlt =>
    rw [parseStringRestAux.eq_def] at h
    simp [hne1, hne2, hlt] at h
  | case10 acc c rest hne1 hne2 hge ih =>
    rw [parseStringRestAux.eq_def] at h
    simp [hne1, hne2, hge] at h
    simp only [List.cons_append]
    rw [parseStringRestAux.eq_def]
    simp [hne1, hne2, hge]
    exact ih _ _ h

/-- Probing a non-whitespace head is unaffected by appended whitespace. -/
theorem headIs_append_ws {c : Char} (hcw : isJsonWs c = false) (cs ss : List Char)
    (hss : WsL ss) : headIs c (cs ++ ss) = headIs c cs := by
  cases cs with
  | nil =>
    cases ss with
    | nil => rfl
    | cons w ss2 =>
      have hw : isJsonWs w = true := hss w (List.mem_cons_self _ _)
      have hne : w ≠ c := fun e => by
        rw [e, hcw] at hw
        exact Bool.noConfusion hw
      simp [headIs, hne]
  | cons x xs => rfl

/-- Digit runs are unaffected by appended whitespace. -/
theorem takeWhile_digit_append (cs ss : List Char) (hss : WsL ss) :
    (cs ++ ss).takeWhile Char.isDigit = cs.takeWhile Char.isDigit := by
  induction cs with
  | nil =>
    simp only [List.nil_append, List.takeWhile_nil]
    cases ss with
    | nil => rfl
    | cons w ss2 =>
      have hw := ws_not_digit (hss w (List.mem_cons_self _ _))
      simp [List.takeWhile_cons, hw]
  | cons x xs ih =>
    by_cases hx : x.isDigit = true
    · simp [List.takeWhile_cons, hx, ih]
    · simp [List.takeWhile_cons, hx]

/-- Dropping a digit run distributes over appended whitespace. -/
theorem dropWhile_digit_append (cs ss : List Char) (hss : WsL ss) :
    (cs ++ ss).dropWhile Char.isDigit = cs.dropWhile Char.isDigit ++ ss := by
  induction cs with
  | nil =>
    simp only [List.nil_append, List.dropWhile_nil]
    cases ss with
    | nil => rfl
    | cons w ss2 =>
      have hw := ws_not_digit (hss w (List.mem_cons_self _ _))
      simp [List.dropWhile_cons, hw]
  | cons x xs ih =>
    by_cases hx : x.isDigit = true
    · simp [List.dropWhile_cons, hx, ih]
    · simp [List.dropWhile_cons, hx]

/-- The exponent part is insensitive to appended whitespace. -/
theorem parseExpPart_append (neg : Bool) (mant : ℚ) (cs : List Char) (q : ℚ)
    (r ss : List Char) (hss : WsL ss) (h : parseExpPart neg mant cs = some (q, r)) :
    parseExpPart neg mant (cs ++ ss) = some (q, r ++ ss) := by
  simp only [parseExpPart] at h ⊢
  rw [headIs_append_ws (by decide) cs ss hss, headIs_append_ws (by decide) cs ss hss,
    show (if headIs '+' cs ∨ headIs '-' cs then (cs ++ ss).tail else cs ++ ss) =
      (if headIs '+' cs ∨ headIs '-' cs then cs.tail else cs) ++ ss by
        by_cases hpm : headIs '+' cs ∨ headIs '-' cs
        · rw [if_pos hpm, if_pos hpm]
          rcases cs with _ | ⟨c, cs2⟩
          · exfalso
            simp [headIs] at hpm
          · rfl
        · rw [if_neg hpm, if_neg hpm],
    takeWhile_digit_append _ _ hss, dropWhile_digit_append _ _ hss]
  by_cases hes :
    ((if headIs '+' cs ∨ headIs '-' cs then cs.tail else cs).takeWhile Char.isDigit) = []
  · rw [if_pos hes] at h
    exact absurd h (by simp)
  · rw [if_neg hes] at h ⊢
    injection h with h2
    injection h2 with hq hr
    subst hq
    subst hr
    rfl

/-- The fraction/exponent tail is insensitive to appended whitespace. -/
theorem parseAfterFrac_append (neg : Bool) (mant : ℚ) (cs : List Char) (q : ℚ)
    (r ss : List Char) (hss : WsL ss) (h : parseAfterFrac neg mant cs = some (q, r)) :
    parseAfterFrac neg mant (cs ++ ss) = some (q, r ++ ss) := by
  simp only [parseAfterFrac] at h ⊢
  rw [headIs_append_ws (by decide) cs ss hss, headIs_append_ws (by decide) cs ss hss]
  by_cases he : headIs 'e' cs ∨ headIs 'E' cs
  · rw [if_pos he] at h ⊢
    rcases cs with _ | ⟨c, cs2⟩
    · exfalso
      simp [headIs] at he
    · exact parseExpPart_append neg mant cs2 q r ss hss h
  · rw [if_neg he] at h ⊢
    injection h with h2
    injection h2 with hq hr
    subst hq
    subst hr
    rfl

/-- The post-integer tail is insensitive to appended whitespace. -/
theorem parseAfterInt_append (neg : Bool) (ip : ℕ) (cs : List Char) (q : ℚ)
    (r ss : List Char) (hss : WsL ss) (h : parseAfterInt neg ip cs = some (q, r)) :
    parseAfterInt neg ip (cs ++ ss) = some (q, r ++ ss) := by
  simp only [parseAfterInt] at h ⊢
  rw [headIs_append_ws (by decide) cs ss hss]
  by_cases hdot : headIs '.' cs
  · rw [if_pos hdot] at h ⊢
    rcases cs with _ | ⟨c, cs2⟩
    · exfalso
      simp [headIs] at hdot
    · simp only [List.cons_append, List.tail_cons] at h ⊢
      rw [takeWhile_digit_append _ _ hss, dropWhile_digit_append _ _ hss]
      by_cases hfs : cs2.takeWhile Char.isDigit = []
      · rw [if_pos hfs] at h
        exact absurd h (by simp)
      · rw [if_neg hfs] at h ⊢
        exact parseAfterFrac_append neg _ _ q r ss hss h
  · rw [if_neg hdot] at h ⊢
    exact parseAfterFrac_append neg _ _ q r ss hss h

/-- The number parser is insensitive to appended whitespace. -/
theorem parseNumber_append (cs : List Char) (q : ℚ) (r ss : List Char)
    (hss : WsL ss) (h : parseNumber cs = some (q, r)) :
    parseNumber (cs ++ ss) = some (q, r ++ ss) := by
  simp only [parseNumber] at h ⊢
  rw [headIs_append_ws (by decide) cs ss hss,
    show (if headIs '-' cs then (cs ++ ss).tail else cs ++ ss) =
      (if headIs '-' cs then cs.tail else cs) ++ ss by
        by_cases hm : headIs '-' cs
        · rw [if_pos hm, if_pos hm]
          rcases cs with _ | ⟨c, cs2⟩
          · exfalso
            simp [headIs] at hm
          · rfl
        · rw [if_neg hm, if_neg hm]]
  rcases hcs1 : (if headIs '-' cs then cs.tail else cs) with _ | ⟨c, r1⟩
  · rw [hcs1] at h
    exact absurd h (by simp)
  · rw [hcs1] at h
    have h' : (if c = '0' then parseAfterInt (headIs '-' cs) 0 r1
        else if c.isDigit = true then
          parseAfterInt (headIs '-' cs) (digitsToNat ((c :: r1).takeWhile Char.isDigit))
            ((c :: r1).dropWhile Char.isDigit)
        else none) = some (q, r) := h
    show (if c = '0' then parseAfterInt (headIs '-' cs) 0 (r1 ++ ss)
        else if c.isDigit = true then
          parseAfterInt (headIs '-' cs)
            (digitsToNat ((c :: (r1 ++ ss)).takeWhile Char.isDigit))
            ((c :: (r1 ++ ss)).dropWhile Char.isDigit)
        else none) = some (q, r ++ ss)
    rw [show (c :: (r1 ++ ss)) = (c :: r1) ++ ss from rfl,
      takeWhile_digit_append _ _ hss, dropWhile_digit_append _ _ hss]
    by_cases h0 : c = '0'
    · rw [if_pos h0] at h' ⊢
      exact parseAfterInt_append _ _ _ q r ss hss h'
    · rw [if_neg h0] at h' ⊢
      by_cases hd : c.isDigit = true
      · rw [if_pos hd] at h' ⊢
        exact parseAfterInt_append _ _ _ q r ss hss h'
      · rw [if_neg hd] at h'
        exact absurd h' (by simp)

/-- A list with a nonempty leading digit run splits around the last of
those digits. -/
theorem digits_split (l : List Char) (hne : l.takeWhile Char.isDigit ≠ []) :
    ∃ pre c, l = pre ++ c :: l.dropWhile Char.isDigit ∧ c.isDigit = true := by
  have h1 := List.dropLast_append_getLast hne
  refine ⟨(l.takeWhile Char.isDigit).dropLast, (l.takeWhile Char.isDigit).getLast hne,
    ?_, ?_⟩
  · conv_lhs => rw [← List.takeWhile_append_dropWhile Char.isDigit l, ← h1]
    simp
  · exact List.mem_takeWhile_imp (List.getLast_mem hne)

/-- A successful exponent part ends at a digit. -/
theorem parseExpPart_ends (neg : Bool) (mant : ℚ) (cs : List Char) (q : ℚ)
    (r : List Char) (h : parseExpPart neg mant cs = some (q, r)) :
    ∃ pre c, cs = pre ++ c :: r ∧ c.isDigit = true := by
  rcases cs with _ | ⟨c0, cs2⟩
  · simp [parseExpPart, headIs] at h
  · by_cases hpm : headIs '+' (c0 :: cs2) ∨ headIs '-' (c0 :: cs2)
    · simp only [parseExpPart, if_pos hpm, List.tail_cons] at h
      by_cases hes : cs2.takeWhile Char.isDigit = []
      · rw [if_pos hes] at h
        exact absurd h (by simp)
      · rw [if_neg hes] at h
        injection h with h2
        injection h2 with hq hr
        obtain ⟨pre, c, hsplit, hc⟩ := digits_split cs2 hes
        refine ⟨c0 :: pre, c, ?_, hc⟩
        rw [← hr, List.cons_append]
        exact congrArg (c0 :: ·) hsplit
    · simp only [parseExpPart, if_neg hpm] at h
      by_cases hes : (c0 :: cs2).takeWhile Char.isDigit = []
      · rw [if_pos hes] at h
        exact absurd h (by simp)
      · rw [if_neg hes] at h
        injection h with h2
        injection h2 with hq hr
        obtain ⟨pre, c, hsplit, hc⟩ := digits_split (c0 :: cs2) hes
        refine ⟨pre, c, ?_, hc⟩
        rw [← hr]
        exact hsplit

/-- A successful fraction/exponent tail consumes nothing or ends at a
digit. -/
theorem parseAfterFrac_ends (neg : Bool) (mant : ℚ) (cs : List Char) (q : ℚ)
    (r : List Char) (h : parseAfterFrac neg mant cs = some (q, r)) :
    r = cs ∨ ∃ pre c, cs = pre ++ c :: r ∧ c.isDigit = true := by
  simp only [parseAfterFrac] at h
  by_cases he : headIs 'e' cs ∨ headIs 'E' cs
  · rw [if_pos he] at h
    rcases cs with _ | ⟨c0, cs2⟩
    · exfalso
      simp [headIs] at he
    · simp only [List.tail_cons] at h
      right
      obtain ⟨pre, c, hsplit, hc⟩ := parseExpPart_ends neg mant cs2 q r h
      refine ⟨c0 :: pre, c, ?_, hc⟩
      rw [List.cons_append]
      exact congrArg (c0 :: ·) hsplit
  · rw [if_neg he] at h
    injection h with h2
    injection h2 with hq hr
    exact Or.inl hr.symm

/-- A successful post-integer tail consumes nothing or ends at a
digit. -/
theorem parseAfterInt_ends (neg : Bool) (ip : ℕ) (cs : List Char) (q : ℚ)
    (r : List Char) (h : parseAfterInt neg ip cs = some (q, r)) :
    r = cs ∨ ∃ pre c, cs = pre ++ c :: r ∧ c.isDigit = true := by
  simp only [parseAfterInt] at h
  by_cases hdot : headIs '.' cs
  · rw [if_pos hdot] at h
    rcases cs with _ | ⟨c0, cs2⟩
    · exfalso
      simp [headIs] at hdot
    · simp only [List.tail_cons] at h
      by_cases hfs : cs2.takeWhile Char.isDigit = []
      · rw [if_pos hfs] at h
        exact absurd h (by simp)
      · rw [if_neg hfs] at h
        right
        obtain ⟨pre2, c2, hsplit2, hc2⟩ := digits_split cs2 hfs
        rcases parseAfterFrac_ends neg _ (cs2.dropWhile Char.isDigit) q r h with
          hr | ⟨pre3, c3, hsplit3, hc3⟩
        · refine ⟨c0 :: pre2, c2, ?_, hc2⟩
          rw [hr, List.cons_append]
          exact congrArg (c0 :: ·) hsplit2
        · refine ⟨c0 :: pre2 ++ c2 :: pre3, c3, ?_, hc3⟩
          rw [hsplit3] at hsplit2
          rw [hsplit2]
          simp
  · rw [if_neg hdot] at h
    exact parseAfterFrac_ends neg _ cs q r h

/-- A successful number parse ends at a digit. -/
theorem parseNumber_ends (cs : List Char) (q : ℚ) (r : List Char)
    (h : parseNumber cs = some (q, r)) :
    ∃ pre c, cs = pre ++ c :: r ∧ c.isDigit = true := by
  simp only [parseNumber] at h
  rcases hcs1 : (if headIs '-' cs then cs.tail else cs) with _ | ⟨c, r1⟩
  · rw [hcs1] at h
    exact absurd h (by simp)
  · rw [hcs1] at h
    have hsp : ∃ sp : List Char, cs = sp ++ c :: r1 := by
      by_cases hm : headIs '-' cs
      · rcases cs with _ | ⟨x, xs⟩
        · exfalso
          simp [headIs] at hm
        · rw [if_pos hm] at hcs1
          simp only [List.tail_cons] at hcs1
          exact ⟨[x], by simp [hcs1]⟩
      · rw [if_neg hm] at hcs1
        exact ⟨[], by simp [hcs1]⟩
    obtain ⟨sp, hspe⟩ := hsp
    have h' : (if c = '0' then parseAfterInt (headIs '-' cs) 0 r1
        else if c.isDigit = true then
          parseAfterInt (headIs '-' cs) (digitsToNat ((c :: r1).takeWhile Char.isDigit))
            ((c :: r1).dropWhile Char.isDigit)
        else none) = some (q, r) := h
    by_cases h0 : c = '0'
    · rw [if_pos h0] at h'
      rcases parseAfterInt_ends _ _ _ q r h' with hr | ⟨pre3, c3, hsplit3, hc3⟩
      · refine ⟨sp, c, ?_, by rw [h0]; rfl⟩
        rw [hspe, hr]
      · refine ⟨sp ++ c :: pre3, c3, ?_, hc3⟩
        rw [hspe, hsplit3]
        simp
    · rw [if_neg h0] at h'
      by_cases hd : c.isDigit = true
      · rw [if_pos hd] at h'
        have hne : (c :: r1).takeWhile Char.isDigit ≠ [] := by
          simp [List.takeWhile_cons, hd]
        obtain ⟨pre2, c2, hsplit2, hc2⟩ := digits_split (c :: r1) hne
        rcases parseAfterInt_ends _ _ _ q r h' with hr | ⟨pre3, c3, hsplit3, hc3⟩
        · refine ⟨sp ++ pre2, c2, ?_, hc2⟩
          rw [← hr] at hsplit2
          rw [hspe, show sp ++ c :: r1 = sp ++ (c :: r1) from rfl, hsplit2]
          simp
        · refine ⟨sp ++ pre2 ++ c2 :: pre3, c3, ?_, hc3⟩
          rw [hsplit3] at hsplit2
          rw [hspe, show sp ++ c :: r1 = sp ++ (c :: r1) from rfl, hsplit2]
          simp
      · rw [if_neg hd] at h'
        exact absurd h' (by simp)

/-- Bounds of a decimal digit character. -/
theorem digit_toNat {c : Char} (h : c.isDigit = true) : 48 ≤ c.toNat ∧ c.toNat ≤ 57 := by
  simp only [Char.isDigit, ge_iff_le, Bool.and_eq_true, decide_eq_true_eq] at h
  exact ⟨h.1, h.2⟩

/-- A digit differs from any character outside the digit block. -/
theorem digit_ne_of_toNat {c : Char} (h : c.isDigit = true) {d : Char}
    (hd : 57 < d.toNat ∨ d.toNat < 48) : c ≠ d := by
  intro e
  obtain ⟨h1, h2⟩ := digit_toNat h
  subst e
  rcases hd with hd | hd <;> omega

/-- ASCII lower-casing fixes characters below the upper-case block. -/
theorem myLower_of_lt {c : Char} (h : c.toNat < 65) : myLower c = c := by
  simp only [myLower]
  rw [if_neg]
  exact fun hc => by omega

/-- A value parse fails on empty input. -/
theorem parseF_value_nil (f : ℕ) : parseF f PK.value [] = none := by
  cases f <;> rfl

/-- The parser fails on empty input under every continuation. -/
theorem parseF_nil (f : ℕ) (k : PK) : parseF f k [] = none := by
  cases f with
  | zero => rfl
  | succ f =>
    cases k with
    | value => rfl
    | arrFirst => simp [parseF, headIs, parseF_value_nil]
    | arrNext acc => rfl
    | objFirst => rfl
    | objNext acc => rfl

/-- A true head probe exposes the head. -/
theorem headIs_split {c : Char} {l : List Char} (h : headIs c l = true) :
    l = c :: l.tail := by
  rcases l with _ | ⟨x, t⟩
  · simp [headIs] at h
  · have hx : x = c := by simpa [headIs] using h
    subst hx
    rfl

/-- A failing head comparison refutes a head probe. -/
theorem not_headIs_cons {c x : Char} {l : List Char} (h : ¬x = c) :
    ¬(headIs c (x :: l) = true) := by
  simp only [headIs, decide_eq_true_eq]
  exact h

/-- A failing head comparison refutes a literal-prefix test. -/
theorem not_isPrefixOf_cons {a b : Char} {as bs : List Char} (h : ¬b = a) :
    ¬(List.isPrefixOf (a :: as) (b :: bs) = true) := by
  simp only [ List.isPrefixOf, Bool.and_eq_true, beq_iff_eq]
  exact fun e => h e.1.symm

/-- Unfold a true literal-prefix test into an append decomposition. -/
theorem isPrefixOf_split {lit cs : List Char} (h : lit.isPrefixOf cs = true) :
    cs = lit ++ cs.drop lit.length := by
  obtain ⟨t, ht⟩ := List.isPrefixOf_iff_prefix.mp h
  rw [← ht]
  simp

/-- The head of a number cannot start a keyword or a punctuator. -/
theorem numHead_ne {c d : Char} (hc : c = '-' ∨ c.isDigit = true)
    (h1 : ¬d = '-') (h2 : d.isDigit = false) : ¬c = d := by
  intro e
  rw [e] at hc
  rcases hc with hc | hc
  · exact h1 hc
  · rw [h2] at hc
    exact Bool.false_ne_true hc

/-- Splitting off the whitespace prefix. -/
theorem split_ws (l : List Char) : l = l.takeWhile isJsonWs ++ skipWs l := by
  simp only [skipWs]
  exact (List.takeWhile_append_dropWhile isJsonWs l).symm

/-- An exhausted `skipWs` means the list was all whitespace. -/
theorem wsL_of_skipWs_nil {l : List Char} (h : skipWs l = []) : WsL l := by
  simp only [skipWs, List.dropWhile_eq_nil_iff] at h
  exact h

/-- Chaining an end-split with a further end-split of its remainder. -/
theorem ends_step {a r1 r : List Char} (p1 : List Char) (c1 : Char)
    (e1 : a = p1 ++ c1 :: r1)
    (h2 : ∃ pre c, r1 = pre ++ c :: r ∧ EndC c) :
    ∃ pre c, a = pre ++ c :: r ∧ EndC c := by
  obtain ⟨p2, c2, e2, hc2⟩ := h2
  refine ⟨p1 ++ c1 :: p2, c2, ?_, hc2⟩
  rw [e1, e2]
  simp

/-- An end-split of the whitespace-skipped list lifts to the list. -/
theorem ends_unskip {b r : List Char}
    (h : ∃ pre c, skipWs b = pre ++ c :: r ∧ EndC c) :
    ∃ pre c, b = pre ++ c :: r ∧ EndC c := by
  obtain ⟨p, c, e, hc⟩ := h
  refine ⟨b.takeWhile isJsonWs ++ p, c, ?_, hc⟩
  conv_lhs => rw [split_ws b]
  rw [e]
  simp

/-- End-splits compose. -/
theorem ends_chain {a r1 r : List Char}
    (h1 : ∃ pre c, a = pre ++ c :: r1 ∧ EndC c)
    (h2 : ∃ pre c, r1 = pre ++ c :: r ∧ EndC c) :
    ∃ pre c, a = pre ++ c :: r ∧ EndC c := by
  obtain ⟨p1, c1, e1, _⟩ := h1
  exact ends_step p1 c1 e1 h2

/-- An end-split survives prepending a head character. -/
theorem ends_cons (c0 : Char) {tl r : List Char}
    (h : ∃ pre c, tl = pre ++ c :: r ∧ EndC c) :
    ∃ pre c, c0 :: tl = pre ++ c :: r ∧ EndC c := by
  obtain ⟨p, c, e, hc⟩ := h
  exact ⟨c0 :: p, c, by rw [e]; rfl, hc⟩

/-- A successful value parse starts at a value-start character. -/
theorem parseF_starts (f : ℕ) (cs : List Char) (j : Json) (r : List Char)
    (h : parseF f PK.value cs = some (j, r)) :
    ∃ c cs2, cs = c :: cs2 ∧ ValueStart c := by
  cases f with
  | zero => simp [parseF] at h
  | succ f =>
    simp only [parseF] at h
    by_cases h1 : ['n', 'u', 'l', 'l'].isPrefixOf cs = true
    · exact ⟨'n', _, by rw [isPrefixOf_split h1]; rfl, by simp [ValueStart]⟩
    · rw [if_neg h1] at h
      by_cases h2 : ['t', 'r', 'u', 'e'].isPrefixOf cs = true
      · exact ⟨'t', _, by rw [isPrefixOf_split h2]; rfl, by simp [ValueStart]⟩
      · rw [if_neg h2] at h
        by_cases h3 : ['f', 'a', 'l', 's', 'e'].isPrefixOf cs = true
        · exact ⟨'f', _, by rw [isPrefixOf_split h3]; rfl, by simp [ValueStart]⟩
        · rw [if_neg h3] at h
          by_cases h4 : headIs '"' cs = true
          · exact ⟨'"', _, headIs_split h4, by simp [ValueStart]⟩
          · rw [if_neg h4] at h
            by_cases h5 : headIs '[' cs = true
            · exact ⟨'[', _, headIs_split h5, by simp [ValueStart]⟩
            · rw [if_neg h5] at h
              by_cases h6 : headIs '\x7b' cs = true
              · exact ⟨'\x7b', _, headIs_split h6, by simp [ValueStart]⟩
              · rw [if_neg h6] at h
                by_cases h7 : (headIs '-' cs || headDigit cs) = true
                · rcases cs with _ | ⟨c, tl⟩
                  · simp [headIs, headDigit] at h7
                  · refine ⟨c, tl, rfl, ?_⟩
                    have hc : c = '-' ∨ c.isDigit = true := by
                      simpa [headIs, headDigit] using h7
                    rcases hc with hc | hc
                    · subst hc
                      simp [ValueStart]
                    · simp [ValueStart, hc]
                · rw [if_neg h7] at h
                  simp at h

/-- A successful parse consumes at least one character and stops just
after a value-end character. -/
theorem parseF_ends (f : ℕ) : ∀ (k : PK) (cs : List Char) (j : Json) (r : List Char),
    parseF f k cs = some (j, r) → ∃ pre c, cs = pre ++ c :: r ∧ EndC c := by
  induction f with
  | zero =>
    intro k cs j r h
    simp [parseF] at h
  | succ f ih =>
    intro k cs j r h
    cases k with
    | value =>
      simp only [parseF] at h
      by_cases h1 : ['n', 'u', 'l', 'l'].isPrefixOf cs = true
      · rw [if_pos h1] at h
        injection h with h'
        injection h' with hj hr
        refine ⟨['n', 'u', 'l'], 'l', ?_, by simp [EndC]⟩
        rw [← hr]
        exact isPrefixOf_split h1
      · rw [if_neg h1] at h
        by_cases h2 : ['t', 'r', 'u', 'e'].isPrefixOf cs = true
        · rw [if_pos h2] at h
          injection h with h'
          injection h' with hj hr
          refine ⟨['t', 'r', 'u'], 'e', ?_, by simp [EndC]⟩
          rw [← hr]
          exact isPrefixOf_split h2
        · rw [if_neg h2] at h
          by_cases h3 : ['f', 'a', 'l', 's', 'e'].isPrefixOf cs = true
          · rw [if_pos h3] at h
            injection h with h'
            injection h' with hj hr
            refine ⟨['f', 'a', 'l', 's'], 'e', ?_, by simp [EndC]⟩
            rw [← hr]
            exact isPrefixOf_split h3
          · rw [if_neg h3] at h
            by_cases h4 : headIs '"' cs = true
            · rw [if_pos h4] at h
              rcases hs : parseStringRestAux [] cs.tail with _ | ⟨s, r1⟩
              · rw [hs] at h
                simp at h
              · rw [hs] at h
                injection h with h'
                injection h' with hj hr
                subst hr
                obtain ⟨pre, hp⟩ := parseStringRestAux_ends [] cs.tail s r1 hs
                refine ⟨'"' :: pre, '"', ?_, by simp [EndC]⟩
                rw [headIs_split h4, hp]
                rfl
            · rw [if_neg h4] at h
              by_cases h5 : headIs '[' cs = true
              · rw [if_pos h5] at h
                have hE := ends_unskip (ih PK.arrFirst (skipWs cs.tail) j r h)
                rw [headIs_split h5]
                exact ends_cons '[' hE
              · rw [if_neg h5] at h
                by_cases h6 : headIs '\x7b' cs = true
                · rw [if_pos h6] at h
                  have hE := ends_unskip (ih PK.objFirst (skipWs cs.tail) j r h)
                  rw [headIs_split h6]
                  exact ends_cons '\x7b' hE
                · rw [if_neg h6] at h
                  by_cases h7 : (headIs '-' cs || headDigit cs) = true
                  · rw [if_pos h7] at h
                    rcases hn : parseNumber cs with _ | ⟨q, r1⟩
                    · rw [hn] at h
                      simp at h
                    · rw [hn] at h
                      injection h with h'
                      injection h' with hj hr
                      subst hr
                      obtain ⟨pre, c, hsp, hc⟩ := parseNumber_ends cs q r1 hn
                      exact ⟨pre, c, hsp, Or.inr (Or.inr (Or.inr (Or.inl hc)))⟩
                  · rw [if_neg h7] at h
                    simp at h
    | arrFirst =>
      simp only [parseF] at h
      by_cases h0 : headIs ']' cs = true
      · rw [if_pos h0] at h
        injection h with h'
        injection h' with hj hr
        subst hr
        exact ⟨[], ']', headIs_split h0, by simp [EndC]⟩
      · rw [if_neg h0] at h
        rcases hv : parseF f PK.value cs with _ | ⟨v, r1⟩
        · rw [hv] at h
          simp at h
        · rw [hv] at h
          exact ends_chain (ih PK.value cs v r1 hv)
            (ends_unskip (ih (PK.arrNext [v]) (skipWs r1) j r h))
    | arrNext acc =>
      simp only [parseF] at h
      by_cases h0 : headIs ',' cs = true
      · rw [if_pos h0] at h
        rcases hv : parseF f PK.value (skipWs cs.tail) with _ | ⟨v, r1⟩
        · rw [hv] at h
          simp at h
        · rw [hv] at h
          have hA := ends_chain (ends_unskip (ih PK.value (skipWs cs.tail) v r1 hv))
            (ends_unskip (ih (PK.arrNext (acc ++ [v])) (skipWs r1) j r h))
          rw [headIs_split h0]
          exact ends_cons ',' hA
      · rw [if_neg h0] at h
        by_cases h1 : headIs ']' cs = true
        · rw [if_pos h1] at h
          injection h with h'
          injection h' with hj hr
          subst hr
          exact ⟨[], ']', headIs_split h1, by simp [EndC]⟩
        · rw [if_neg h1] at h
          simp at h
    | objFirst =>
      simp only [parseF] at h
      by_cases h0 : headIs '\x7d' cs = true
      · rw [if_pos h0] at h
        injection h with h'
        injection h' with hj hr
        subst hr
        exact ⟨[], '\x7d', headIs_split h0, by simp [EndC]⟩
      · rw [if_neg h0] at h
        by_cases h1 : headIs '"' cs = true
        · rw [if_pos h1] at h
          rcases hK : parseStringRestAux [] cs.tail with _ | ⟨k, r1⟩
          · rw [hK] at h
            simp at h
          · simp only [hK] at h
            by_cases hcolon : headIs ':' (skipWs r1) = true
            · rw [if_pos hcolon] at h
              rcases hsk : skipWs r1 with _ | ⟨x, t2⟩
              · rw [hsk] at hcolon
                simp [headIs] at hcolon
              · have hx : x = ':' := by
                  rw [hsk] at hcolon
                  simpa [headIs] using hcolon
                subst hx
                rw [hsk] at h
                simp only [List.tail_cons] at h
                rcases hv : parseF f PK.value (skipWs t2) with _ | ⟨v, r3⟩
                · rw [hv] at h
                  simp at h
                · rw [hv] at h
                  obtain ⟨pre, hp⟩ := parseStringRestAux_ends [] cs.tail k r1 hK
                  have hV := ends_unskip (ih PK.value (skipWs t2) v r3 hv)
                  have hN := ends_unskip
                    (ih (PK.objNext (objInsert [] k v)) (skipWs r3) j r h)
                  have hT := ends_chain hV hN
                  have hr1 : r1 = r1.takeWhile isJsonWs ++ ':' :: t2 := by
                    conv_lhs => rw [split_ws r1]
                    rw [hsk]
                  have hR1 := ends_step (r1.takeWhile isJsonWs) ':' hr1 hT
                  have hT0 : ∃ p c, cs.tail = p ++ c :: r ∧ EndC c :=
                    ends_chain ⟨pre, '"', hp, by simp [EndC]⟩ hR1
                  rw [headIs_split h1]
                  exact ends_cons '"' hT0
            · rw [if_neg hcolon] at h
              simp at h
        · rw [if_neg h1] at h
          simp at h
    | objNext acc =>
      simp only [parseF] at h
      by_cases h0 : headIs '\x7d' cs = true
      · rw [if_pos h0] at h
        injection h with h'
        injection h' with hj hr
        subst hr
        exact ⟨[], '\x7d', headIs_split h0, by simp [EndC]⟩
      · rw [if_neg h0] at h
        by_cases h1 : headIs ',' cs = true
        · rw [if_pos h1] at h
          by_cases h2 : headIs '"' (skipWs cs.tail) = true
          · rw [if_pos h2] at h
            rcases hsk0 : skipWs cs.tail with _ | ⟨x0, t0⟩
            · rw [hsk0] at h2
              simp [headIs] at h2
            · have hx0 : x0 = '"' := by
                rw [hsk0] at h2
                simpa [headIs] using h2
              subst hx0
              rw [hsk0] at h
              simp only [List.tail_cons] at h
              rcases hK : parseStringRestAux [] t0 with _ | ⟨k, r1⟩
              · rw [hK] at h
                simp at h
              · simp only [hK] at h
                by_cases hcolon : headIs ':' (skipWs r1) = true
                · rw [if_pos hcolon] at h
                  rcases hsk : skipWs r1 with _ | ⟨x, t2⟩
                  · rw [hsk] at hcolon
                    simp [headIs] at hcolon
                  · have hx : x = ':' := by
                      rw [hsk] at hcolon
                      simpa [headIs] using hcolon
                    subst hx
                    rw [hsk] at h
                    simp only [List.tail_cons] at h
                    rcases hv : parseF f PK.value (skipWs t2) with _ | ⟨v, r3⟩
                    · rw [hv] at h
                      simp at h
                    · rw [hv] at h
                      obtain ⟨pre, hp⟩ := parseStringRestAux_ends [] t0 k r1 hK
                      have hV := ends_unskip (ih PK.value (skipWs t2) v r3 hv)
                      have hN := ends_unskip
                        (ih (PK.objNext (objInsert acc k v)) (skipWs r3) j r h)
                      have hT := ends_chain hV hN
                      have hr1 : r1 = r1.takeWhile isJsonWs ++ ':' :: t2 := by
                        conv_lhs => rw [split_ws r1]
                        rw [hsk]
                      have hR1 := ends_step (r1.takeWhile isJsonWs) ':' hr1 hT
                      have hT0 : ∃ p c, t0 = p ++ c :: r ∧ EndC c :=
                        ends_chain ⟨pre, '"', hp, by simp [EndC]⟩ hR1
                      have hTl : cs.tail = cs.tail.takeWhile isJsonWs ++ '"' :: t0 := by
                        conv_lhs => rw [split_ws cs.tail]
                        rw [hsk0]
                      have hTl2 := ends_step (cs.tail.takeWhile isJsonWs) '"' hTl hT0
                      rw [headIs_split h1]
                      exact ends_cons ',' hTl2
                · rw [if_neg hcolon] at h
                  simp at h
          · rw [if_neg h2] at h
            simp at h
        · rw [if_neg h1] at h
          simp at h

/-- Appending trailing whitespace (with at least as much fuel) leaves a
successful parse unchanged; the whitespace rides along in the
remainder. -/
theorem parseF_append (f : ℕ) : ∀ (f2 : ℕ) (k : PK) (cs : List Char) (j : Json)
    (r ss : List Char), f ≤ f2 → WsL ss → parseF f k cs = some (j, r) →
    parseF f2 k (cs ++ ss) = some (j, r ++ ss) := by
  induction f with
  | zero =>
    intro f2 k cs j r ss _ _ h
    simp [parseF] at h
  | succ f ih =>
    intro f2 k cs j r ss hf hss h
    rcases f2 with _ | f2
    · exact absurd hf (by omega)
    have hf' : f ≤ f2 := by omega
    cases k with
    | value =>
      simp only [parseF] at h ⊢
      by_cases h1 : ['n', 'u', 'l', 'l'].isPrefixOf cs = true
      · obtain ⟨t, ht⟩ := List.isPrefixOf_iff_prefix.mp h1
        subst ht
        rw [if_pos h1] at h
        injection h with h'
        injection h' with hj hr
        subst hj
        subst hr
        rw [List.append_assoc]
        rw [if_pos (List.isPrefixOf_iff_prefix.mpr (List.prefix_append _ _))]
        rfl
      · rw [if_neg h1] at h
        by_cases h2 : ['t', 'r', 'u', 'e'].isPrefixOf cs = true
        · obtain ⟨t, ht⟩ := List.isPrefixOf_iff_prefix.mp h2
          subst ht
          rw [if_pos h2] at h
          injection h with h'
          injection h' with hj hr
          subst hj
          subst hr
          rw [List.append_assoc]
          simp only [List.cons_append, List.nil_append]
          rw [if_neg (not_isPrefixOf_cons (by decide))]
          rw [if_pos (by simp [ List.isPrefixOf])]
          rfl
        · rw [if_neg h2] at h
          by_cases h3 : ['f', 'a', 'l', 's', 'e'].isPrefixOf cs = true
          · obtain ⟨t, ht⟩ := List.isPrefixOf_iff_prefix.mp h3
            subst ht
            rw [if_pos h3] at h
            injection h with h'
            injection h' with hj hr
            subst hj
            subst hr
            rw [List.append_assoc]
            simp only [List.cons_append, List.nil_append]
            rw [if_neg (not_isPrefixOf_cons (by decide))]
            rw [if_neg (not_isPrefixOf_cons (by decide))]
            rw [if_pos (by simp [ List.isPrefixOf])]
            rfl
          · rw [if_neg h3] at h
            by_cases h4 : headIs '"' cs = true
            · rcases cs with _ | ⟨c0, tl⟩
              · simp [headIs] at h4
              have hc0 : c0 = '"' := by simpa [headIs] using h4
              subst hc0
              rw [if_pos h4] at h
              simp only [List.tail_cons] at h
              rcases hs : parseStringRestAux [] tl with _ | ⟨s, r1⟩
              · rw [hs] at h
                simp at h
              rw [hs] at h
              injection h with h'
              injection h' with hj hr
              subst hj
              subst hr
              simp only [List.cons_append]
              rw [if_neg (not_isPrefixOf_cons (by decide))]
              rw [if_neg (not_isPrefixOf_cons (by decide))]
              rw [if_neg (not_isPrefixOf_cons (by decide))]
              rw [if_pos (by simp [headIs])]
              simp only [List.tail_cons]
              rw [parseStringRestAux_append [] tl s r1 ss hs]
            · rw [if_neg h4] at h
              by_cases h5 : headIs '[' cs = true
              · rcases cs with _ | ⟨c0, tl⟩
                · simp [headIs] at h5
                have hc0 : c0 = '[' := by simpa [headIs] using h5
                subst hc0
                rw [if_pos h5] at h
                simp only [List.tail_cons] at h
                have hne : skipWs tl ≠ [] := by
                  intro e
                  rw [e, parseF_nil] at h
                  simp at h
                simp only [List.cons_append]
                rw [if_neg (not_isPrefixOf_cons (by decide))]
                rw [if_neg (not_isPrefixOf_cons (by decide))]
                rw [if_neg (not_isPrefixOf_cons (by decide))]
                rw [if_neg (not_headIs_cons (by decide))]
                rw [if_pos (by simp [headIs])]
                simp only [List.tail_cons]
                rw [skipWs_append_of_ne_nil hne]
                exact ih f2 PK.arrFirst (skipWs tl) j r ss hf' hss h
              · rw [if_neg h5] at h
                by_cases h6 : headIs '\x7b' cs = true
                · rcases cs with _ | ⟨c0, tl⟩
                  · simp [headIs] at h6
                  have hc0 : c0 = '\x7b' := by simpa [headIs] using h6
                  subst hc0
                  rw [if_pos h6] at h
                  simp only [List.tail_cons] at h
                  have hne : skipWs tl ≠ [] := by
                    intro e
                    rw [e, parseF_nil] at h
                    simp at h
                  simp only [List.cons_append]
                  rw [if_neg (not_isPrefixOf_cons (by decide))]
                  rw [if_neg (not_isPrefixOf_cons (by decide))]
                  rw [if_neg (not_isPrefixOf_cons (by decide))]
                  rw [if_neg (not_headIs_cons (by decide))]
                  rw [if_neg (not_headIs_cons (by decide))]
                  rw [if_pos (by simp [headIs])]
                  simp only [List.tail_cons]
                  rw [skipWs_append_of_ne_nil hne]
                  exact ih f2 PK.objFirst (skipWs tl) j r ss hf' hss h
                · rw [if_neg h6] at h
                  by_cases h7 : (headIs '-' cs || headDigit cs) = true
                  · rcases cs with _ | ⟨c0, tl⟩
                    · simp [headIs, headDigit] at h7
                    have hc : c0 = '-' ∨ c0.isDigit = true := by
                      simpa [headIs, headDigit] using h7
                    rw [if_pos h7] at h
                    rcases hn : parseNumber (c0 :: tl) with _ | ⟨q, r1⟩
                    · rw [hn] at h
                      simp at h
                    rw [hn] at h
                    injection h with h'
                    injection h' with hj hr
                    subst hj
                    subst hr
                    simp only [List.cons_append]
                    rw [if_neg (not_isPrefixOf_cons (numHead_ne hc (by decide) (by decide)))]
                    rw [if_neg (not_isPrefixOf_cons (numHead_ne hc (by decide) (by decide)))]
                    rw [if_neg (not_isPrefixOf_cons (numHead_ne hc (by decide) (by decide)))]
                    rw [if_neg (not_headIs_cons (numHead_ne hc (by decide) (by decide)))]
                    rw [if_neg (not_headIs_cons (numHead_ne hc (by decide) (by decide)))]
                    rw [if_neg (not_headIs_cons (numHead_ne hc (by decide) (by decide)))]
                    rw [if_pos ?grd]
                    case grd =>
                      rcases hc with hc | hc
                      · subst hc
                        simp [headIs]
                      · simp [headIs, headDigit, hc]
                    have happ := parseNumber_append (c0 :: tl) q r1 ss hss hn
                    simp only [List.cons_append] at happ
                    rw [happ]
                  · rw [if_neg h7] at h
                    simp at h
    | arrFirst =>
      simp only [parseF] at h ⊢
      by_cases h0 : headIs ']' cs = true
      · rcases cs with _ | ⟨c0, tl⟩
        · simp [headIs] at h0
        have hc0 : c0 = ']' := by simpa [headIs] using h0
        subst hc0
        rw [if_pos h0] at h
        injection h with h'
        injection h' with hj hr
        subst hj
        subst hr
        simp only [List.cons_append]
        rw [if_pos (by simp [headIs])]
        rfl
      · rcases hv : parseF f PK.value cs with _ | ⟨v, r1⟩
        · rw [if_neg h0, hv] at h
          simp at h
        · rw [if_neg h0] at h
          simp only [hv] at h
          have hcs : cs ≠ [] := by
            intro e
            rw [e, parseF_value_nil] at hv
            simp at hv
          rcases cs with _ | ⟨c0, tl⟩
          · exact absurd rfl hcs
          simp only [List.cons_append]
          rw [show headIs ']' (c0 :: (tl ++ ss)) = headIs ']' (c0 :: tl) from rfl]
          rw [if_neg h0]
          have hva := ih f2 PK.value (c0 :: tl) v r1 ss hf' hss hv
          simp only [List.cons_append] at hva
          simp only [hva]
          have hne : skipWs r1 ≠ [] := by
            intro e
            rw [e, parseF_nil] at h
            simp at h
          rw [skipWs_append_of_ne_nil hne]
          exact ih f2 (PK.arrNext [v]) (skipWs r1) j r ss hf' hss h
    | arrNext acc =>
      simp only [parseF] at h ⊢
      by_cases h0 : headIs ',' cs = true
      · rcases cs with _ | ⟨c0, tl⟩
        · simp [headIs] at h0
        have hc0 : c0 = ',' := by simpa [headIs] using h0
        subst hc0
        rw [if_pos h0] at h
        simp only [List.tail_cons] at h
        rcases hv : parseF f PK.value (skipWs tl) with _ | ⟨v, r1⟩
        · rw [hv] at h
          simp at h
        · simp only [hv] at h
          have hne0 : skipWs tl ≠ [] := by
            intro e
            rw [e, parseF_value_nil] at hv
            simp at hv
          have hne1 : skipWs r1 ≠ [] := by
            intro e
            rw [e, parseF_nil] at h
            simp at h
          simp only [List.cons_append]
          rw [if_pos (by simp [headIs])]
          simp only [List.tail_cons]
          rw [skipWs_append_of_ne_nil hne0]
          simp only [ih f2 PK.value (skipWs tl) v r1 ss hf' hss hv]
          rw [skipWs_append_of_ne_nil hne1]
          exact ih f2 (PK.arrNext (acc ++ [v])) (skipWs r1) j r ss hf' hss h
      · by_cases h1 : headIs ']' cs = true
        · rcases cs with _ | ⟨c0, tl⟩
          · simp [headIs] at h1
          have hc0 : c0 = ']' := by simpa [headIs] using h1
          subst hc0
          rw [if_neg h0, if_pos h1] at h
          injection h with h'
          injection h' with hj hr
          subst hj
          subst hr
          simp only [List.cons_append]
          rw [show headIs ',' (']' :: (tl ++ ss)) = headIs ',' (']' :: tl) from rfl]
          rw [if_neg h0]
          rw [if_pos (by simp [headIs])]
          rfl
        · rw [if_neg h0, if_neg h1] at h
          simp at h
    | objFirst =>
      simp only [parseF] at h ⊢
      by_cases h0 : headIs '\x7d' cs = true
      · rcases cs with _ | ⟨c0, tl⟩
        · simp [headIs] at h0
        have hc0 : c0 = '\x7d' := by simpa [headIs] using h0
        subst hc0
        rw [if_pos h0] at h
        injection h with h'
        injection h' with hj hr
        subst hj
        subst hr
        simp only [List.cons_append]
        rw [if_pos (by simp [headIs])]
        rfl
      · by_cases h1 : headIs '"' cs = true
        · rcases cs with _ | ⟨c0, tl⟩
          · simp [headIs] at h1
          have hc0 : c0 = '"' := by simpa [headIs] using h1
          subst hc0
          rw [if_neg h0, if_pos h1] at h
          simp only [List.tail_cons] at h
          rcases hK : parseStringRestAux [] tl with _ | ⟨k, r1⟩
          · rw [hK] at h
            simp at h
          simp only [hK] at h
          by_cases hcolon : headIs ':' (skipWs r1) = true
          · rw [if_pos hcolon] at h
            rcases hsk : skipWs r1 with _ | ⟨x, t2⟩
            · rw [hsk] at hcolon
              simp [headIs] at hcolon
            have hx : x = ':' := by
              rw [hsk] at hcolon
              simpa [headIs] using hcolon
            subst hx
            rw [hsk] at h
            simp only [List.tail_cons] at h
            rcases hv : parseF f PK.value (skipWs t2) with _ | ⟨v, r3⟩
            · rw [hv] at h
              simp at h
            simp only [hv] at h
            have hneK : skipWs r1 ≠ [] := by
              rw [hsk]
              simp
            have hne2 : skipWs t2 ≠ [] := by
              intro e
              rw [e, parseF_value_nil] at hv
              simp at hv
            have hne3 : skipWs r3 ≠ [] := by
              intro e
              rw [e, parseF_nil] at h
              simp at h
            simp only [List.cons_append]
            rw [show headIs '\x7d' ('"' :: (tl ++ ss)) = headIs '\x7d' ('"' :: tl) from rfl]
            rw [if_neg h0]
            rw [if_pos (by simp [headIs])]
            simp only [List.tail_cons]
            simp only [parseStringRestAux_append [] tl k r1 ss hK]
            rw [skipWs_append_of_ne_nil hneK, hsk]
            simp only [List.cons_append]
            rw [if_pos (by simp [headIs])]
            simp only [List.tail_cons]
            rw [skipWs_append_of_ne_nil hne2]
            simp only [ih f2 PK.value (skipWs t2) v r3 ss hf' hss hv]
            rw [skipWs_append_of_ne_nil hne3]
            exact ih f2 (PK.objNext (objInsert [] k v)) (skipWs r3) j r ss hf' hss h
          · rw [if_neg hcolon] at h
            simp at h
        · rw [if_neg h0, if_neg h1] at h
          simp at h
    | objNext acc =>
      simp only [parseF] at h ⊢
      by_cases h0 : headIs '\x7d' cs = true
      · rcases cs with _ | ⟨c0, tl⟩
        · simp [headIs] at h0
        have hc0 : c0 = '\x7d' := by simpa [headIs] using h0
        subst hc0
        rw [if_pos h0] at h
        injection h with h'
        injection h' with hj hr
        subst hj
        subst hr
        simp only [List.cons_append]
        rw [if_pos (by simp [headIs])]
        rfl
      · by_cases h1 : headIs ',' cs = true
        · rcases cs with _ | ⟨c0, tl⟩
          · simp [headIs] at h1
          have hc0 : c0 = ',' := by simpa [headIs] using h1
          subst hc0
          rw [if_neg h0, if_pos h1] at h
          simp only [List.tail_cons] at h
          by_cases h2 : headIs '"' (skipWs tl) = true
          · rw [if_pos h2] at h
            rcases hsk0 : skipWs tl with _ | ⟨x0, t0⟩
            · rw [hsk0] at h2
              simp [headIs] at h2
            have hx0 : x0 = '"' := by
              rw [hsk0] at h2
              simpa [headIs] using h2
            subst hx0
            rw [hsk0] at h
            simp only [List.tail_cons] at h
            rcases hK : parseStringRestAux [] t0 with _ | ⟨k, r1⟩
            · rw [hK] at h
              simp at h
            simp only [hK] at h
            by_cases hcolon : headIs ':' (skipWs r1) = true
            · rw [if_pos hcolon] at h
              rcases hsk : skipWs r1 with _ | ⟨x, t2⟩
              · rw [hsk] at hcolon
                simp [headIs] at hcolon
              have hx : x = ':' := by
                rw [hsk] at hcolon
                simpa [headIs] using hcolon
              subst hx
              rw [hsk] at h
              simp only [List.tail_cons] at h
              rcases hv : parseF f PK.value (skipWs t2) with _ | ⟨v, r3⟩
              · rw [hv] at h
                simp at h
              simp only [hv] at h
              have hne00 : skipWs tl ≠ [] := by
                rw [hsk0]
                simp
              have hneK : skipWs r1 ≠ [] := by
                rw [hsk]
                simp
              have hne2 : skipWs t2 ≠ [] := by
                intro e
                rw [e, parseF_value_nil] at hv
                simp at hv
              have hne3 : skipWs r3 ≠ [] := by
                intro e
                rw [e, parseF_nil] at h
                simp at h
              simp only [List.cons_append]
              rw [show headIs '\x7d' (',' :: (tl ++ ss)) = headIs '\x7d' (',' :: tl) from rfl]
              rw [if_neg h0]
              rw [if_pos (by simp [headIs])]
              simp only [List.tail_cons]
              rw [skipWs_append_of_ne_nil hne00, hsk0]
              simp only [List.cons_append]
              rw [if_pos (by simp [headIs])]
              simp only [List.tail_cons]
              simp only [parseStringRestAux_append [] t0 k r1 ss hK]
              rw [skipWs_append_of_ne_nil hneK, hsk]
              simp only [List.cons_append]
              rw [if_pos (by simp [headIs])]
              simp only [List.tail_cons]
              rw [skipWs_append_of_ne_nil hne2]
              simp only [ih f2 PK.value (skipWs t2) v r3 ss hf' hss hv]
              rw [skipWs_append_of_ne_nil hne3]
              exact ih f2 (PK.objNext (objInsert acc k v)) (skipWs r3) j r ss hf' hss h
            · rw [if_neg hcolon] at h
              simp at h
          · rw [if_neg h2] at h
            simp at h
        · rw [if_neg h0, if_neg h1] at h
          simp at h

/-- Padding a parsable string with JSON whitespace on both sides leaves
`jsonParse` unchanged. -/
theorem jsonParse_pad (t : String) (j : Json) (w1 w2 : List Char)
    (ht : jsonParse t = some j) (hw1 : WsL w1) (hw2 : WsL w2) :
    jsonParse (String.mk (w1 ++ t.toList ++ w2)) = some j := by
  simp only [jsonParse] at ht ⊢
  rcases hp : parseF (2 * t.length + 2) PK.value (skipWs t.toList) with _ | ⟨j0, r⟩
  · rw [hp] at ht
    simp at ht
  · simp only [hp] at ht
    by_cases hr : skipWs r = []
    · rw [if_pos hr] at ht
      injection ht with hj
      subst hj
      have hne : skipWs t.toList ≠ [] := by
        intro e
        rw [e, parseF_value_nil] at hp
        simp at hp
      have htl : (String.mk (w1 ++ t.toList ++ w2)).toList = w1 ++ (t.toList ++ w2) := by
        simp
      have hlen : 2 * t.length + 2 ≤ 2 * (String.mk (w1 ++ t.toList ++ w2)).length + 2 := by
        have : (String.mk (w1 ++ t.toList ++ w2)).length =
            w1.length + t.toList.length + w2.length := by
          show (w1 ++ t.toList ++ w2).length = _
          simp [List.length_append]
          omega
        have ht2 : t.length = t.toList.length := rfl
        omega
      rw [htl, skipWs_append_wsL hw1, skipWs_append_of_ne_nil hne]
      have happ := parseF_append (2 * t.length + 2)
        (2 * (String.mk (w1 ++ t.toList ++ w2)).length + 2) PK.value (skipWs t.toList)
        j0 r w2 hlen hw2 hp
      simp only [happ]
      rw [if_pos ?hws]
      case hws =>
        apply skipWs_of_wsL
        intro c hc
        rcases List.mem_append.mp hc with hc | hc
        · exact wsL_of_skipWs_nil hr c hc
        · exact hw2 c hc
    · rw [if_neg hr] at ht
      simp at ht

/-- The possible JSON whitespace characters. -/
theorem jsonWs_cases {c : Char} (h : isJsonWs c = true) :
    c = ' ' ∨ c = '\t' ∨ c = '\n' ∨ c = '\r' := by
  simp only [isJsonWs, Bool.or_eq_true, beq_iff_eq] at h
  tauto

/-- JSON whitespace is not a backtick. -/
theorem jsonWs_ne_bt {c : Char} (h : isJsonWs c = true) : c ≠ '`' := by
  rcases jsonWs_cases h with h | h | h | h <;> subst h <;> decide

/-- Lower-casing JSON whitespace cannot produce `j`. -/
theorem jsonWs_myLower_ne_j {c : Char} (h : isJsonWs c = true) : myLower c ≠ 'j' := by
  rcases jsonWs_cases h with h | h | h | h <;> subst h <;> decide

/-- ASCII lower-casing fixes every value-start character. -/
theorem valueStart_myLower {c : Char} (h : ValueStart c) : myLower c = c := by
  rcases h with h | h | h | h | h | h | h | h
  · subst h; decide
  · subst h; decide
  · subst h; decide
  · subst h; decide
  · subst h; decide
  · subst h; decide
  · subst h; decide
  · exact myLower_of_lt (by have := digit_toNat h; omega)

/-- A value-start character is not a backtick. -/
theorem valueStart_ne_bt {c : Char} (h : ValueStart c) : c ≠ '`' := by
  rcases h with h | h | h | h | h | h | h | h
  · subst h; decide
  · subst h; decide
  · subst h; decide
  · subst h; decide
  · subst h; decide
  · subst h; decide
  · subst h; decide
  · exact digit_ne_of_toNat h (by decide)

/-- Lower-casing a value-start character cannot produce `j`. -/
theorem valueStart_myLower_ne_j {c : Char} (h : ValueStart c) : myLower c ≠ 'j' := by
  rw [valueStart_myLower h]
  rcases h with h | h | h | h | h | h | h | h
  · subst h; decide
  · subst h; decide
  · subst h; decide
  · subst h; decide
  · subst h; decide
  · subst h; decide
  · subst h; decide
  · exact digit_ne_of_toNat h (by decide)

/-- A value-end character is not a backtick. -/
theorem endC_ne_bt {c : Char} (h : EndC c) : c ≠ '`' := by
  rcases h with h | h | h | h | h | h
  · subst h; decide
  · subst h; decide
  · subst h; decide
  · exact digit_ne_of_toNat h (by decide)
  · subst h; decide
  · subst h; decide

/-- `dropWhile` is the identity when the head fails the predicate. -/
theorem dropWhile_eq_self_of_head {p : Char → Bool} {l : List Char}
    (h : ∀ c, l.head? = some c → p c = false) : l.dropWhile p = l := by
  cases l with
  | nil => rfl
  | cons c tl =>
    rw [List.dropWhile_cons, if_neg]
    rw [h c rfl]
    exact Bool.false_ne_true

/-- `trim` is the identity when neither end is whitespace. -/
theorem jsTrim_mk {l : List Char}
    (h1 : ∀ c, l.head? = some c → isJsWs c = false)
    (h2 : ∀ c, l.reverse.head? = some c → isJsWs c = false) :
    jsTrim (String.mk l) = String.mk l := by
  simp only [jsTrim]
  have e0 : (String.mk l).toList = l := rfl
  rw [e0, dropWhile_eq_self_of_head h1, dropWhile_eq_self_of_head h2, List.reverse_reverse]

/-- A trimmed string does not start with whitespace. -/
theorem trimmed_head {t : String} (htr : jsTrim t = t) {c : Char}
    (hc : t.toList.head? = some c) : isJsWs c = false := by
  by_contra hw
  rw [Bool.not_eq_false] at hw
  rcases hl : t.toList with _ | ⟨c0, tl⟩
  · rw [hl] at hc
    simp at hc
  · rw [hl] at hc
    injection hc with hc
    subst hc
    have hlen := congrArg String.length htr
    have h1 : (jsTrim t).length ≤ tl.length := by
      show (((t.toList.dropWhile isJsWs).reverse.dropWhile isJsWs).reverse).length ≤ tl.length
      rw [List.length_reverse]
      calc ((t.toList.dropWhile isJsWs).reverse.dropWhile isJsWs).length
          ≤ (t.toList.dropWhile isJsWs).reverse.length :=
            (List.dropWhile_sublist _).length_le
        _ = (t.toList.dropWhile isJsWs).length := List.length_reverse _
        _ ≤ tl.length := by
            rw [hl, List.dropWhile_cons, if_pos hw]
            exact (List.dropWhile_sublist _).length_le
    have h3 : t.length = tl.length + 1 := by
      show t.toList.length = tl.length + 1
      rw [hl]
      rfl
    omega

/-- The case-insensitive ```` ```json ```` replace misses whenever
lower-casing the head cannot give a backtick. -/
theorem stripFenceJson_id {l : List Char}
    (h : ∀ c, l.head? = some c → myLower c ≠ '`') : stripFenceJson l = l := by
  rcases l with _ | ⟨c, tl⟩
  · rfl
  · simp only [stripFenceJson]
    rw [if_neg]
    intro e
    have hc : myLower c = '`' := by
      rw [show (c :: tl).take 7 = c :: tl.take 6 from rfl, List.map_cons,
        show "```json".toList = '`' :: '`' :: '`' :: 'j' :: 's' :: 'o' :: 'n' :: [] from rfl]
        at e
      simp only [List.cons.injEq] at e
      exact e.1
    exact h c rfl hc

/-- The case-insensitive ```` ```json ```` replace misses after a plain
fence when the fourth character cannot lower-case to `j`. -/
theorem stripFenceJson_id3 {tl : List Char}
    (h : ∀ c, tl.head? = some c → myLower c ≠ 'j') :
    stripFenceJson ('`' :: '`' :: '`' :: tl) = '`' :: '`' :: '`' :: tl := by
  simp only [stripFenceJson]
  rw [if_neg]
  intro e
  rcases tl with _ | ⟨m, tl2⟩
  · exact absurd e (by decide)
  · have hm : myLower m = 'j' := by
      rw [show ('`' :: '`' :: '`' :: m :: tl2).take 7 = '`' :: '`' :: '`' :: m :: tl2.take 3
          from rfl,
        show "```json".toList = '`' :: '`' :: '`' :: 'j' :: 's' :: 'o' :: 'n' :: [] from rfl]
        at e
      simp only [List.map_cons, List.cons.injEq] at e
      exact e.2.2.2.1
    exact h m rfl hm

/-- The case-insensitive ```` ```json ```` replace strips exactly seven
characters when they are present. -/
theorem stripFenceJson_strip (rest : List Char) :
    stripFenceJson ('`' :: '`' :: '`' :: 'j' :: 's' :: 'o' :: 'n' :: rest) = rest := by
  simp only [stripFenceJson]
  have hcond : List.map myLower
      (List.take 7 ('`' :: '`' :: '`' :: 'j' :: 's' :: 'o' :: 'n' :: rest)) =
      "```json".toList := rfl
  rw [if_pos hcond]
  rfl

/-- The plain open-fence replace misses when the head is not a
backtick. -/
theorem stripFenceOpen_id {l : List Char}
    (h : ∀ c, l.head? = some c → c ≠ '`') : stripFenceOpen l = l := by
  rcases l with _ | ⟨c, tl⟩
  · rfl
  · simp only [stripFenceOpen]
    rw [if_neg]
    intro e
    have hc : c = '`' := by
      rw [show (c :: tl).take 3 = c :: tl.take 2 from rfl,
        show "```".toList = '`' :: '`' :: '`' :: [] from rfl] at e
      simp only [List.cons.injEq] at e
      exact e.1
    exact h c rfl hc

/-- The plain open-fence replace strips three leading backticks. -/
theorem stripFenceOpen_strip (rest : List Char) :
    stripFenceOpen ('`' :: '`' :: '`' :: rest) = rest := by
  simp only [stripFenceOpen]
  have hcond : List.take 3 ('`' :: '`' :: '`' :: rest) = "```".toList := rfl
  rw [if_pos hcond]
  rfl

/-- The close-fence replace misses when the last character is not a
backtick. -/
theorem stripFenceClose_id {l : List Char}
    (h : ∀ c, l.reverse.head? = some c → c ≠ '`') : stripFenceClose l = l := by
  simp only [stripFenceClose]
  rw [if_neg]
  intro e
  rw [ List.isSuffixOf_iff_suffix] at e
  obtain ⟨p, hp⟩ := e
  have hbt : l.reverse.head? = some '`' := by
    rw [← hp, List.reverse_append]
    rfl
  exact h '`' hbt rfl

/-- The close-fence replace strips three trailing backticks. -/
theorem stripFenceClose_strip (A : List Char) :
    stripFenceClose (A ++ ['`', '`', '`']) = A := by
  simp only [stripFenceClose]
  rw [if_pos]
  · rw [List.length_append]
    simp only [List.length_cons, List.length_nil]
    rw [show A.length + (0 + 1 + 1 + 1) - 3 = A.length by omega]
    exact List.take_left A _
  · rw [ List.isSuffixOf_iff_suffix]
    exact ⟨A, rfl⟩

/-- List-level `trim` is the identity when neither end is whitespace. -/
theorem trimL_id {l : List Char}
    (h1 : ∀ c, l.head? = some c → isJsWs c = false)
    (h2 : ∀ c, l.reverse.head? = some c → isJsWs c = false) :
    ((l.dropWhile isJsWs).reverse.dropWhile isJsWs).reverse = l := by
  rw [dropWhile_eq_self_of_head h1, dropWhile_eq_self_of_head h2, List.reverse_reverse]

/-- Both fence wrappings strip back to the enclosed text when that text
starts with a character that is not a backtick and cannot lower-case to
`j`. -/
theorem stripFences_fenced (sMid : String) (mid xs : List Char) (cm : Char)
    (hs2 : sMid.toList = mid) (hmide : mid = cm :: xs)
    (hnej : myLower cm ≠ 'j') (hnebt : cm ≠ '`') :
    stripFences ("```" ++ sMid ++ "```") = String.mk mid ∧
    stripFences ("```json" ++ sMid ++ "```") = String.mk mid := by
  have hl2 : ("```" ++ sMid ++ "```").toList =
      '`' :: '`' :: '`' :: (mid ++ ('`' :: '`' :: '`' :: [])) := by
    rw [show ("```" ++ sMid ++ "```").toList =
      ('`' :: '`' :: '`' :: []) ++ sMid.toList ++ ('`' :: '`' :: '`' :: []) from rfl, hs2]
    simp
  have hl3 : ("```json" ++ sMid ++ "```").toList =
      '`' :: '`' :: '`' :: 'j' :: 's' :: 'o' :: 'n' ::
        (mid ++ ('`' :: '`' :: '`' :: [])) := by
    rw [show ("```json" ++ sMid ++ "```").toList =
      ('`' :: '`' :: '`' :: 'j' :: 's' :: 'o' :: 'n' :: []) ++ sMid.toList ++
        ('`' :: '`' :: '`' :: []) from rfl, hs2]
    simp
  have hmbt : (mid ++ ('`' :: '`' :: '`' :: [])).head? = some cm := by
    rw [hmide]
    rfl
  constructor
  · have htr2 : (jsTrim ("```" ++ sMid ++ "```")).toList =
        '`' :: '`' :: '`' :: (mid ++ ('`' :: '`' :: '`' :: [])) := by
      show ((("```" ++ sMid ++ "```").toList.dropWhile isJsWs).reverse.dropWhile
        isJsWs).reverse = _
      rw [hl2]
      apply trimL_id
      · intro c hc
        injection hc with hc
        rw [← hc]
        decide
      · intro c hc
        rw [show '`' :: '`' :: '`' :: (mid ++ ('`' :: '`' :: '`' :: [])) =
          ('`' :: '`' :: '`' :: mid) ++ ('`' :: '`' :: '`' :: []) by simp,
          List.reverse_append] at hc
        injection hc with hc
        rw [← hc]
        decide
    simp only [stripFences, htr2]
    rw [stripFenceJson_id3]
    · rw [stripFenceOpen_strip]
      rw [stripFenceClose_strip mid]
    · intro c hc
      rw [hmbt] at hc
      injection hc with hc
      rw [← hc]
      exact hnej
  · have htr3 : (jsTrim ("```json" ++ sMid ++ "```")).toList =
        '`' :: '`' :: '`' :: 'j' :: 's' :: 'o' :: 'n' ::
          (mid ++ ('`' :: '`' :: '`' :: [])) := by
      show ((("```json" ++ sMid ++ "```").toList.dropWhile isJsWs).reverse.dropWhile
        isJsWs).reverse = _
      rw [hl3]
      apply trimL_id
      · intro c hc
        injection hc with hc
        rw [← hc]
        decide
      · intro c hc
        rw [show '`' :: '`' :: '`' :: 'j' :: 's' :: 'o' :: 'n' ::
          (mid ++ ('`' :: '`' :: '`' :: [])) =
          ('`' :: '`' :: '`' :: 'j' :: 's' :: 'o' :: 'n' :: mid) ++
            ('`' :: '`' :: '`' :: []) by simp,
          List.reverse_append] at hc
        injection hc with hc
        rw [← hc]
        decide
    simp only [stripFences, htr3]
    rw [stripFenceJson_strip]
    rw [stripFenceOpen_id]
    · rw [stripFenceClose_strip mid]
    · intro c hc
      rw [hmbt] at hc
      injection hc with hc
      rw [← hc]
      exact hnebt

/-- Shape of a trimmed parsable JSON text: a value-start head and no
trailing backtick. -/
theorem parse_text_shape {t : String} {j : Json} (ht : jsonParse t = some j)
    (htr : jsTrim t = t) :
    ∃ c0 tl, t.toList = c0 :: tl ∧ ValueStart c0 ∧
      (∀ c, t.toList.reverse.head? = some c → c ≠ '`') := by
  simp only [jsonParse] at ht
  rcases hp : parseF (2 * t.length + 2) PK.value (skipWs t.toList) with _ | ⟨j0, r⟩
  · rw [hp] at ht
    simp at ht
  · simp only [hp] at ht
    by_cases hr : skipWs r = []
    · rcases hl : t.toList with _ | ⟨c0, tl⟩
      · rw [hl] at hp
        rw [show skipWs [] = [] from rfl, parseF_value_nil] at hp
        simp at hp
      · have hhead : isJsWs c0 = false := trimmed_head htr (by rw [hl]; rfl)
        have hheadj : isJsonWs c0 = false := by
          rcases hj : isJsonWs c0 with _ | _
          · rfl
          · rw [jsonWs_isJsWs hj] at hhead
            exact absurd hhead (by simp)
        have hskid : skipWs t.toList = t.toList := by
          rw [hl]
          show List.dropWhile isJsonWs (c0 :: tl) = c0 :: tl
          rw [List.dropWhile_cons, if_neg]
          rw [hheadj]
          exact Bool.false_ne_true
        rw [hskid, hl] at hp
        obtain ⟨c, cs2, he, hvs⟩ := parseF_starts _ _ _ _ hp
        injection he with he1 _
        subst he1
        refine ⟨c0, tl, rfl, hvs, ?_⟩
        obtain ⟨pre, cE, hsp, hE⟩ := parseF_ends _ PK.value (c0 :: tl) j0 r hp
        intro d hd
        rw [hsp, List.reverse_append] at hd
        rw [show (cE :: r).reverse = r.reverse ++ [cE] from by simp] at hd
        rcases hrev : r.reverse with _ | ⟨y, ys⟩
        · rw [hrev] at hd
          simp only [List.nil_append, List.cons_append, List.head?_cons] at hd
          injection hd with hd
          rw [← hd]
          exact endC_ne_bt hE
        · rw [hrev] at hd
          simp only [List.cons_append, List.head?_cons] at hd
          injection hd with hd
          have hws : WsL r := wsL_of_skipWs_nil hr
          have hy : y ∈ r := by
            rw [← List.mem_reverse, hrev]
            simp
          rw [← hd]
          exact jsonWs_ne_bt (hws y hy)
    · rw [if_neg hr] at ht
      simp at ht

/-- Claim C4: `safeJSON` strips Markdown code fences — a plain ```` ``` ````
or a case-insensitive ```` ```json ```` at the start and a ```` ``` ```` at
the end, with JSON whitespace tolerated inside the fences — and returns
the parsed JSON value of the enclosed trimmed text; and on every text
whose fence-stripped form fails to parse it returns exactly the fixed
fallback object `\x7btier: "Workable", go_hold_nogo: "Hold", total_score: 60,
analysis: "Fallback result."\x7d` instead of throwing (`safeJSON` is a total
function). -/
theorem claim_C4 (t sMid s : String) (j : Json) (w1 w2 : List Char)
    (ht : jsonParse t = some j) (htr : jsTrim t = t)
    (hmid : sMid.toList = w1 ++ t.toList ++ w2)
    (hw1 : WsL w1) (hw2 : WsL w2)
    (hs : jsonParse (stripFences s) = none) :
    safeJSON t = j ∧
    safeJSON ("```" ++ sMid ++ "```") = j ∧
    safeJSON ("```json" ++ sMid ++ "```") = j ∧
    safeJSON s = fallbackJson := by
  obtain ⟨c0, tl, htl, hvs, hlast⟩ := parse_text_shape ht htr
  have hheadVS : ∀ c, t.toList.head? = some c → ValueStart c := by
    intro c hc
    rw [htl] at hc
    injection hc with hc
    rw [← hc]
    exact hvs
  have hJ : ∀ c, t.toList.head? = some c → myLower c ≠ '`' := by
    intro c hc
    rw [valueStart_myLower (hheadVS c hc)]
    exact valueStart_ne_bt (hheadVS c hc)
  have hO : ∀ c, t.toList.head? = some c → c ≠ '`' := by
    intro c hc
    exact valueStart_ne_bt (hheadVS c hc)
  have hid : stripFences t = t := by
    simp only [stripFences, htr]
    rw [stripFenceJson_id hJ, stripFenceOpen_id hO, stripFenceClose_id hlast]
    rfl
  have hmid_shape : ∃ cm xs, (w1 ++ t.toList ++ w2) = cm :: xs ∧
      (isJsonWs cm = true ∨ ValueStart cm) := by
    rcases w1 with _ | ⟨a, w1x⟩
    · rw [List.nil_append, htl]
      exact ⟨c0, tl ++ w2, by simp, Or.inr hvs⟩
    · exact ⟨a, w1x ++ t.toList ++ w2, by simp, Or.inl (hw1 a (by simp))⟩
  obtain ⟨cm, xs, hmide, hcm⟩ := hmid_shape
  have hnej : myLower cm ≠ 'j' := by
    rcases hcm with hcm | hcm
    · exact jsonWs_myLower_ne_j hcm
    · exact valueStart_myLower_ne_j hcm
  have hnebt : cm ≠ '`' := by
    rcases hcm with hcm | hcm
    · exact jsonWs_ne_bt hcm
    · exact valueStart_ne_bt hcm
  obtain ⟨hf2, hf3⟩ :=
    stripFences_fenced sMid (w1 ++ t.toList ++ w2) xs cm hmid hmide hnej hnebt
  have hpad := jsonParse_pad t j w1 w2 ht hw1 hw2
  refine ⟨?_, ?_, ?_, ?_⟩
  · simp only [safeJSON, hid, ht]
  · simp only [safeJSON, hf2, hpad]
  · simp only [safeJSON, hf3, hpad]
  · simp only [safeJSON, hs]

/-- Witness for C4 at `\x7b"a":1\x7d`, whitespace-padded fence wrappings of
it, and a non-JSON text. -/
theorem claim_C4_witness :
    safeJSON "\x7b\"a\":1\x7d" = Json.obj [("a", Json.num 1)] ∧
    safeJSON ("```" ++ " \x7b\"a\":1\x7d\n" ++ "```") = Json.obj [("a", Json.num 1)] ∧
    safeJSON ("```json" ++ " \x7b\"a\":1\x7d\n" ++ "```") = Json.obj [("a", Json.num 1)] ∧
    safeJSON "not json" = fallbackJson :=
  claim_C4 "\x7b\"a\":1\x7d" " \x7b\"a\":1\x7d\n" "not json"
    (Json.obj [("a", Json.num 1)]) [' '] ['\n']
    rfl (by decide) rfl (by simp [WsL, isJsonWs]) (by simp [WsL, isJsonWs]) rfl
